import Mathlib

/-!
Shallow embedding of `chousei` (src/main.rs): an SRT subtitle timestamp
adjuster.  Rust strings are modelled as `List Char`, the Rust `u32` as `Nat`
with explicit wrap-around modulo `2 ^ 32` where the source can overflow
(release-profile semantics), and fallible operations return `Option` /
`Except`.  The human-readable `message` field of the Rust `ParseError`
(built with `format!` and `Debug` escaping, pure presentation, inspected by
no caller) is not modelled; `reason` and `range` are modelled exactly.
-/

deriving instance DecidableEq for Except

/-- Rust constant `SECOND` (src/main.rs line 9). -/
def SECOND : Nat := 1000

/-- Rust constant `MINUTE` (src/main.rs line 10). -/
def MINUTE : Nat := SECOND * 60

/-- Rust constant `HOUR` (src/main.rs line 11). -/
def HOUR : Nat := MINUTE * 60

/-- Modulus of the Rust `u32` type. -/
def U32MOD : Nat := 2 ^ 32

/-- Rust constant `ARROW_SEPARATOR = " --> "` (src/main.rs line 12). -/
def ARROW_SEPARATOR : List Char := [' ', '-', '-', '>', ' ']

/-- UTF-8 byte length of one scalar value (Rust `char::len_utf8`). -/
def utf8Len (c : Char) : Nat :=
  if c.toNat < 0x80 then 1
  else if c.toNat < 0x800 then 2
  else if c.toNat < 0x10000 then 3
  else 4

/-- Rust `str::len`: the UTF-8 byte length of a string. -/
def byteLen (s : List Char) : Nat := (s.map utf8Len).sum

/-- Modelled from the unicode-width crate (an external dependency of the
repository, not part of src/): terminal display width of one character.
Exact on ASCII (C0 controls and DEL are 0, printable ASCII is 1); for
non-ASCII a simplified classifier assigns 0 to a representative combining
range and 2 to the main East-Asian wide blocks.  Every claim below that
depends on widths only ever evaluates it on ASCII. -/
def charWidth (c : Char) : Nat :=
  if c.toNat < 0x20 ∨ c.toNat = 0x7f then 0
  else if c.toNat < 0x7f then 1
  else if 0x300 ≤ c.toNat ∧ c.toNat ≤ 0x36f then 0
  else if (0x1100 ≤ c.toNat ∧ c.toNat ≤ 0x115f) ∨ (0x2e80 ≤ c.toNat ∧ c.toNat ≤ 0xa4cf)
       ∨ (0xac00 ≤ c.toNat ∧ c.toNat ≤ 0xd7a3) ∨ (0xf900 ≤ c.toNat ∧ c.toNat ≤ 0xfaff)
       ∨ (0xff00 ≤ c.toNat ∧ c.toNat ≤ 0xff60) ∨ (0x20000 ≤ c.toNat ∧ c.toNat ≤ 0x3fffd)
       then 2
  else 1

/-- Rust `UnicodeWidthStr::width`: display width of a string
(sum of the character widths). -/
def widthS (s : List Char) : Nat := (s.map charWidth).sum

/-- Strip one optional leading `'+'` sign (part of Rust `u32::from_str`). -/
def stripPlus : List Char → List Char
  | [] => []
  | c :: rest => if c = '+' then rest else c :: rest

/-- Decimal value of a digit string, most significant digit first. -/
def digitsVal (digits : List Char) : Nat :=
  digits.foldl (fun acc c => acc * 10 + (c.toNat - 48)) 0

/-- Rust `str::parse::<u32>`: an optional leading `'+'`, then one or more
ASCII digits; the value must fit in `u32` (overflow is a parse error).
Anything else fails. -/
def parseU32 (s : List Char) : Option Nat :=
  let digits := stripPlus s
  if digits = [] then none
  else if digits.all (fun c => c.isDigit) then
    if digitsVal digits < U32MOD then some (digitsVal digits) else none
  else none

/-- Rust `str::split_once(char)`: split at the first occurrence of `sep`. -/
def splitOnceChar (sep : Char) : List Char → Option (List Char × List Char)
  | [] => none
  | c :: cs =>
    if c = sep then some ([], cs)
    else (splitOnceChar sep cs).map (fun p => (c :: p.1, p.2))

/-- Rust `str::splitn(n, char)` collected to a vector: at most `n` pieces,
the last piece keeps any further separators verbatim. -/
def splitnChar : Nat → Char → List Char → List (List Char)
  | 0, _, _ => []
  | 1, _, s => [s]
  | n + 2, sep, s =>
    match splitOnceChar sep s with
    | none => [s]
    | some p => p.1 :: splitnChar (n + 1) sep p.2

/-- Check whether `pat` is a prefix of `s` (executable). -/
def leadsWith : List Char → List Char → Bool
  | [], _ => true
  | _ :: _, [] => false
  | p :: ps, c :: cs => p = c && leadsWith ps cs

/-- Rust `str::split_once(&str)`: split at the first occurrence of the
(non-empty) pattern `pat`. -/
def splitOnceList (pat : List Char) : List Char → Option (List Char × List Char)
  | [] => if leadsWith pat [] then some ([], []) else none
  | c :: cs =>
    if leadsWith pat (c :: cs) then some ([], (c :: cs).drop pat.length)
    else (splitOnceList pat cs).map (fun p => (c :: p.1, p.2))

/-- Pieces of a string split after every occurrence of `sep`
(Rust `str::split_inclusive`, the building block of `str::lines`). -/
def splitInclusive (sep : Char) : List Char → List (List Char)
  | [] => []
  | c :: cs =>
    match splitInclusive sep cs with
    | [] => [[c]]
    | p :: ps => if c = sep then [c] :: p :: ps else (c :: p) :: ps

/-- Strip one trailing `"\n"` or `"\r\n"` (the per-line cleanup performed by
Rust `str::lines`; a `'\r'` not followed by `'\n'` is kept). -/
def stripEol (l : List Char) : List Char :=
  match l.reverse with
  | [] => l
  | c :: rest =>
    if c = '\n' then
      match rest with
      | [] => rest.reverse
      | c2 :: rest2 => if c2 = '\r' then rest2.reverse else rest.reverse
    else l

/-- Rust `str::lines`. -/
def strLines (s : List Char) : List (List Char) :=
  (splitInclusive '\n' s).map stripEol

/-- Rust struct `ParseError` (src/main.rs lines 91-95) minus the
presentation-only `message` field; the `range : Range<usize>` field becomes
the `start`/`stop` pair (`end` is a Lean keyword). -/
structure ParseError where
  reason : String
  start : Nat
  stop : Nat
deriving DecidableEq

/-- Rust struct `Subtitle` (src/main.rs lines 84-89); the `from`/`to`
millisecond fields (`u32`) become `fromMs`/`toMs` (`from` is a Lean
keyword). -/
structure Subtitle where
  number : Nat
  fromMs : Nat
  toMs : Nat
  lines : List (List Char)
deriving DecidableEq

/-- Rust `parse_time` (src/main.rs lines 173-245).  `text.splitn(3, ':')`
is collected and reversed; the iterator's three `next()` calls become
`[0]?`/`[1]?`/`[2]?`; the mutable defaults of the Rust code become the `.ok`
results of the missing-segment branches.  The `u32` arithmetic of line 244
can overflow; release-profile wrap-around is modelled by one reduction
modulo `2 ^ 32` (reducing each `u32` operation separately gives the same
value). -/
def parse_time (text : List Char) (index : Nat) : Except ParseError Nat :=
  let numberStrs := (splitnChar 3 ':' text).reverse
  let secondsMillis : Except ParseError (Nat × Nat) :=
    match numberStrs[0]? with
    | none => .ok (0, 0)
    | some secondsStr0 =>
      let sm := (splitOnceChar ',' secondsStr0).getD (secondsStr0, ['0'])
      match parseU32 sm.1 with
      | none => .error { reason := "Invalid seconds", start := index, stop := index + widthS text }
      | some seconds =>
        match parseU32 sm.2 with
        | none => .error { reason := "Invalid millis", start := index, stop := index + widthS text }
        | some millis => .ok (seconds, millis)
  let minutesE : Except ParseError Nat :=
    match numberStrs[1]? with
    | none => .ok 0
    | some minutesStr =>
      match parseU32 minutesStr with
      | none => .error { reason := "Invalid minutes", start := index, stop := index + widthS text }
      | some minutes => .ok minutes
  let hoursE : Except ParseError Nat :=
    match numberStrs[2]? with
    | none => .ok 0
    | some hoursStr =>
      match parseU32 hoursStr with
      | none => .error { reason := "Invalid hours", start := index, stop := index + widthS text }
      | some hours => .ok hours
  match secondsMillis with
  | .error e => .error e
  | .ok (seconds, millis) =>
    match minutesE with
    | .error e => .error e
    | .ok minutes =>
      match hoursE with
      | .error e => .error e
      | .ok hours =>
        .ok ((hours * HOUR + minutes * MINUTE + seconds * SECOND + millis) % U32MOD)

/-- The `while let Some(number_line) = lines_iter.next()` loop of Rust
`parse_srt` (src/main.rs lines 101-168), recursing on the list of remaining
lines with the running offset `index`.  The first argument is recursion
fuel — an upper bound on the number of loop iterations, semantically
irrelevant whenever it is at least the number of remaining lines (theorem
`parseSrtGoFuel_congr` below); it only makes the recursion structural so
that the kernel can evaluate the parser.  The inner body-collecting loop
(lines 153-160: advance past each line, stop after consuming a blank line
or at end of input, keep the non-blank lines) is expressed with
`takeWhile`/`dropWhile`: `body` is the run of non-blank lines, the blank
terminator (display width 0, so it advances the offset by 1) is consumed
when present.  Note line 151 of the source advances past the time line by
`time_line.len()` (bytes), not by its display width. -/
def parseSrtGoFuel : Nat → List (List Char) → Nat → Except ParseError (List Subtitle)
  | 0, _, _ => .ok []
  | _ + 1, [], _ => .ok []
  | fuel + 1, numberLine :: rest, index =>
    match parseU32 numberLine with
    | none =>
      .error { reason := "Invalid subtitle number", start := index,
               stop := index + widthS numberLine }
    | some number =>
      let index1 := index + widthS numberLine + 1
      match rest with
      | [] => .error { reason := "Missing time line", start := index1, stop := index1 }
      | timeLine :: rest2 =>
        match splitOnceList ARROW_SEPARATOR timeLine with
        | none =>
          .error { reason := "Missing ' --> '", start := index1,
                   stop := index1 + widthS timeLine }
        | some ft =>
          match parse_time ft.1 index1 with
          | .error e => .error e
          | .ok fromMs =>
            match parse_time ft.2 (index1 + widthS ft.1 + widthS ARROW_SEPARATOR) with
            | .error e => .error e
            | .ok toMs =>
              let index2 := index1 + byteLen timeLine + 1
              let body := rest2.takeWhile (fun l => !l.isEmpty)
              let dropped := rest2.dropWhile (fun l => !l.isEmpty)
              let index3 := index2 + (body.map (fun l => widthS l + 1)).sum
                              + (if dropped.isEmpty then 0 else 1)
              match parseSrtGoFuel fuel (dropped.drop 1) index3 with
              | .error e => .error e
              | .ok subs => .ok ({ number := number, fromMs := fromMs, toMs := toMs,
                                   lines := body } :: subs)

/-- The `parse_srt` loop started on a list of remaining lines at running
offset `index`, with just enough fuel. -/
def parseSrtGo (ls : List (List Char)) (index : Nat) : Except ParseError (List Subtitle) :=
  parseSrtGoFuel ls.length ls index

/-- Rust `parse_srt` (src/main.rs lines 97-171). -/
def parse_srt (text : List Char) : Except ParseError (List Subtitle) :=
  parseSrtGo (strLines text) 0

/-- Fuel-based digit accumulator (so that the kernel can evaluate it);
`natDigitsCore fuel n acc` prepends the decimal digits of `n` to `acc`
provided `n < fuel`. -/
def natDigitsCore : Nat → Nat → List Char → List Char
  | 0, _, acc => acc
  | fuel + 1, n, acc =>
    if n < 10 then Char.ofNat (48 + n) :: acc
    else natDigitsCore fuel (n / 10) (Char.ofNat (48 + n % 10) :: acc)

/-- Decimal digit characters of `n` (Rust `{}` formatting of an unsigned
integer). -/
def natDigits (n : Nat) : List Char :=
  natDigitsCore (n + 1) n []

/-- Rust format specifier `{:0>w}`: left-pad with `'0'` to width at least
`w`. -/
def zeroPad (w : Nat) (s : List Char) : List Char :=
  List.replicate (w - s.length) '0' ++ s

/-- Rust `print_time` (src/main.rs lines 271-282). -/
def print_time (millis : Nat) : List Char :=
  let hours := millis / HOUR
  let leftover1 := millis - hours * HOUR
  let minutes := leftover1 / MINUTE
  let leftover2 := leftover1 - minutes * MINUTE
  let seconds := leftover2 / SECOND
  let leftover3 := leftover2 - seconds * SECOND
  zeroPad 2 (natDigits hours) ++ ':' :: zeroPad 2 (natDigits minutes)
    ++ ':' :: zeroPad 2 (natDigits seconds) ++ ',' :: zeroPad 3 (natDigits leftover3)

/-- Rust `print_subtitle` (src/main.rs lines 257-269): the number line, the
time line, then every body line, each `'\n'`-terminated. -/
def print_subtitle (s : Subtitle) : List Char :=
  natDigits s.number ++ '\n'
    :: (print_time s.fromMs ++ ARROW_SEPARATOR ++ print_time s.toMs) ++ '\n'
    :: (s.lines.map (fun l => l ++ ['\n'])).flatten

/-- Rust `print_subtitles` (src/main.rs lines 247-255): each rendered
subtitle followed by one extra `'\n'` (the blank separator line). -/
def print_subtitles (subs : List Subtitle) : List Char :=
  (subs.map (fun s => print_subtitle s ++ ['\n'])).flatten

/-- Wrapping `u32` addition (release-profile `+=` of src/main.rs
lines 70-71); both arguments are `u32` values, i.e. below `2 ^ 32`. -/
def u32add (a b : Nat) : Nat := (a + b) % U32MOD

/-- Wrapping `u32` subtraction (release-profile `-=` of src/main.rs
lines 67-68); both arguments are `u32` values, i.e. below `2 ^ 32`. -/
def u32sub (a b : Nat) : Nat := (a + U32MOD - b % U32MOD) % U32MOD

/-- The adjustment loop of Rust `main` (src/main.rs lines 65-73): every
subtitle's `from`/`to` is adjusted by `adjustment`, subtracting when the
user-supplied delta was negative (`neg`), adding otherwise.  The source
performs no underflow or overflow check of any kind. -/
def adjustSubtitles (subs : List Subtitle) (adjustment : Nat) (neg : Bool) : List Subtitle :=
  subs.map (fun s =>
    if neg then
      { s with fromMs := u32sub s.fromMs adjustment, toMs := u32sub s.toMs adjustment }
    else
      { s with fromMs := u32add s.fromMs adjustment, toMs := u32add s.toMs adjustment })

/-- Render a list of lines as `'\n'`-terminated text (the shape every
output of `print_subtitles` has). -/
def unlines (L : List (List Char)) : List Char :=
  (L.map (fun l => l ++ ['\n'])).flatten

/-- Byte length of a list of lines, counting one terminator byte per line;
an upper bound for the offset bookkeeping of the parser. -/
def linesBytesT (ls : List (List Char)) : Nat :=
  (ls.map (fun l => byteLen l + 1)).sum

/-- Optional-segment parse: a timestamp segment that is absent contributes
the default value `0` (mirrors the mutable defaults of `parse_time`). -/
def segParse : Option (List Char) → Option Nat
  | none => some 0
  | some s => parseU32 s

/-- One SRT block given as raw text lines: number line, time line and body
lines (without the blank separator that follows them in a file). -/
structure RawBlock where
  numLine : List Char
  timeLine : List Char
  body : List (List Char)

/-- The lines of one block as they appear in an SRT file: number line, time
line, body lines, then the blank separator line. -/
def blockLines (b : RawBlock) : List (List Char) :=
  b.numLine :: b.timeLine :: (b.body ++ [[]])

/-- Well-formedness of a raw block together with the record it denotes: the
number line parses as `u32`, the time line splits at the arrow into two
decodable timestamps, and the body lines are exactly the record's non-blank
single lines. -/
def blockMatch (b : RawBlock) (s : Subtitle) : Prop :=
  parseU32 b.numLine = some s.number ∧
  (∃ ft, splitOnceList ARROW_SEPARATOR b.timeLine = some ft ∧
    parse_time ft.1 0 = .ok s.fromMs ∧ parse_time ft.2 0 = .ok s.toMs) ∧
  b.body = s.lines ∧
  ∀ l ∈ b.body, l ≠ [] ∧ '\n' ∉ l ∧ l.getLast? ≠ some '\r'

/-- The raw block `print_subtitle` renders a subtitle to. -/
def subtitleBlock (s : Subtitle) : RawBlock :=
  { numLine := natDigits s.number,
    timeLine := print_time s.fromMs ++ ARROW_SEPARATOR ++ print_time s.toMs,
    body := s.lines }

/-- Two decoding results agree up to the reported span: both succeed with
the same millisecond count, or both fail with the same reason. -/
def sameOutcome : Except ParseError Nat → Except ParseError Nat → Bool
  | .ok a, .ok b => a = b
  | .error e1, .error e2 => e1.reason = e2.reason
  | _, _ => false

/-- Offset bookkeeping exactly as the specification words it: every consumed
line — the time line included — advances the running offset by its display
width plus one.  This differs from `parseSrtGoFuel` only in the time-line
advancement (`widthS timeLine` in place of the source's
`byteLen timeLine`). -/
def parseSrtSpecGoFuel : Nat → List (List Char) → Nat → Except ParseError (List Subtitle)
  | 0, _, _ => .ok []
  | _ + 1, [], _ => .ok []
  | fuel + 1, numberLine :: rest, index =>
    match parseU32 numberLine with
    | none =>
      .error { reason := "Invalid subtitle number", start := index,
               stop := index + widthS numberLine }
    | some number =>
      let index1 := index + widthS numberLine + 1
      match rest with
      | [] => .error { reason := "Missing time line", start := index1, stop := index1 }
      | timeLine :: rest2 =>
        match splitOnceList ARROW_SEPARATOR timeLine with
        | none =>
          .error { reason := "Missing ' --> '", start := index1,
                   stop := index1 + widthS timeLine }
        | some ft =>
          match parse_time ft.1 index1 with
          | .error e => .error e
          | .ok fromMs =>
            match parse_time ft.2 (index1 + widthS ft.1 + widthS ARROW_SEPARATOR) with
            | .error e => .error e
            | .ok toMs =>
              let index2 := index1 + widthS timeLine + 1
              let body := rest2.takeWhile (fun l => !l.isEmpty)
              let dropped := rest2.dropWhile (fun l => !l.isEmpty)
              let index3 := index2 + (body.map (fun l => widthS l + 1)).sum
                              + (if dropped.isEmpty then 0 else 1)
              match parseSrtSpecGoFuel fuel (dropped.drop 1) index3 with
              | .error e => .error e
              | .ok subs => .ok ({ number := number, fromMs := fromMs, toMs := toMs,
                                   lines := body } :: subs)

/-- `parse_srt` with the specification's display-width offset bookkeeping
on every consumed line. -/
def parse_srt_spec (text : List Char) : Except ParseError (List Subtitle) :=
  parseSrtSpecGoFuel (strLines text).length (strLines text) 0

example : parse_time "01:02:03,004".toList 0 = .ok 3723004 := by decide
example : parse_time "03".toList 7 = .ok 3000 := by decide
example : parse_time "1:2:3:4".toList 0 =
    .error { reason := "Invalid seconds", start := 0, stop := 7 } := by decide
example : print_time 3723004 = "01:02:03,004".toList := by decide
example : parse_srt "1".toList =
    .error { reason := "Missing time line", start := 2, stop := 2 } := by decide
example : parse_srt "1\n00:00:01,000 --> 00:00:03,500\nHello\n\n".toList =
    .ok [{ number := 1, fromMs := 1000, toMs := 3500, lines := ["Hello".toList] }] := by
  decide

/-! ### Character and width lemmas -/

theorem charWidth_le_utf8Len (c : Char) : charWidth c ≤ utf8Len c := by
  unfold charWidth utf8Len
  have := c.toNat
  split_ifs <;> omega

theorem widthS_le_byteLen (s : List Char) : widthS s ≤ byteLen s := by
  induction s with
  | nil => simp [widthS, byteLen]
  | cons c cs ih =>
    simp only [widthS, byteLen, List.map_cons, List.sum_cons] at *
    exact Nat.add_le_add (charWidth_le_utf8Len c) ih

theorem widthS_append (a b : List Char) : widthS (a ++ b) = widthS a + widthS b := by
  simp [widthS, List.sum_append]

theorem byteLen_append (a b : List Char) : byteLen (a ++ b) = byteLen a + byteLen b := by
  simp [byteLen, List.sum_append]

theorem isDigit_toNat (c : Char) (h : c.isDigit = true) : 48 ≤ c.toNat ∧ c.toNat ≤ 57 := by
  simp only [Char.isDigit, ge_iff_le, Bool.and_eq_true, decide_eq_true_eq] at h
  exact h

/-- Characters a successfully decoded timestamp can consist of. -/
def niceChar (c : Char) : Prop :=
  c.isDigit = true ∨ c = '+' ∨ c = ':' ∨ c = ','

theorem niceChar_byte_width (c : Char) (h : niceChar c) :
    utf8Len c = 1 ∧ charWidth c = 1 := by
  rcases h with h | h | h | h
  · obtain ⟨h1, h2⟩ := isDigit_toNat c h
    unfold utf8Len charWidth
    split_ifs <;> omega
  all_goals subst h; exact ⟨by decide, by decide⟩

/-! ### parseU32 lemmas -/

theorem parseU32_some_iff (s : List Char) (v : Nat) :
    parseU32 s = some v ↔
      stripPlus s ≠ [] ∧ (stripPlus s).all (fun c => c.isDigit) = true ∧
        digitsVal (stripPlus s) = v ∧ v < U32MOD := by
  simp only [parseU32]
  constructor
  · intro h
    split_ifs at h with h1 h2 h3
    all_goals simp_all
  · rintro ⟨h1, h2, rfl, h4⟩
    split_ifs
    all_goals simp_all

theorem stripPlus_mem (s : List Char) (c : Char) (h : c ∈ stripPlus s) : c ∈ s := by
  cases s with
  | nil => exact h
  | cons x rest =>
    simp only [stripPlus] at h
    split_ifs at h
    · exact List.mem_cons_of_mem _ h
    · exact h

theorem stripPlus_cases (s : List Char) :
    s = stripPlus s ∨ s = '+' :: stripPlus s := by
  cases s with
  | nil => exact Or.inl rfl
  | cons x rest =>
    simp only [stripPlus]
    split_ifs with hx
    · subst hx; exact Or.inr rfl
    · exact Or.inl rfl

theorem parseU32_mem (s : List Char) (v : Nat) (h : parseU32 s = some v) :
    ∀ c ∈ s, c.isDigit = true ∨ c = '+' := by
  obtain ⟨hne, hall, hval, hlt⟩ := (parseU32_some_iff s v).mp h
  intro c hc
  rcases stripPlus_cases s with hs | hs
  · exact Or.inl ((List.all_eq_true.mp hall) c (hs ▸ hc))
  · rw [hs] at hc
    rcases List.mem_cons.mp hc with rfl | hc'
    · exact Or.inr rfl
    · exact Or.inl ((List.all_eq_true.mp hall) c hc')

theorem parseU32_lt (s : List Char) (v : Nat) (h : parseU32 s = some v) : v < U32MOD :=
  ((parseU32_some_iff s v).mp h).2.2.2

/-! ### splitOnceChar and splitnChar lemmas -/

theorem splitOnceChar_eq_some (sep : Char) (s a b : List Char)
    (h : splitOnceChar sep s = some (a, b)) : s = a ++ sep :: b ∧ sep ∉ a := by
  induction s generalizing a b with
  | nil => simp [splitOnceChar] at h
  | cons c cs ih =>
    unfold splitOnceChar at h
    split_ifs at h with hc
    · simp only [Option.some.injEq, Prod.mk.injEq] at h
      obtain ⟨h1, h2⟩ := h
      subst h1
      subst h2
      subst hc
      exact ⟨rfl, by simp⟩
    · cases hsp : splitOnceChar sep cs with
      | none => rw [hsp] at h; simp at h
      | some p =>
        obtain ⟨x, y⟩ := p
        rw [hsp] at h
        simp at h
        obtain ⟨h1, h2⟩ := h
        subst h1
        subst h2
        obtain ⟨h1, h2⟩ := ih x y hsp
        refine ⟨by rw [List.cons_append, h1], ?_⟩
        simp only [List.mem_cons, not_or]
        exact ⟨fun hcc => hc hcc.symm, h2⟩

theorem splitOnceChar_eq_none (sep : Char) (s : List Char)
    (h : splitOnceChar sep s = none) : sep ∉ s := by
  induction s with
  | nil => simp
  | cons c cs ih =>
    unfold splitOnceChar at h
    split_ifs at h with hc
    cases hsp : splitOnceChar sep cs with
    | some p => rw [hsp] at h; simp at h
    | none =>
      simp only [List.mem_cons, not_or]
      exact ⟨fun hcc => hc hcc.symm, ih hsp⟩

theorem splitOnceChar_append (sep : Char) (a b : List Char) (ha : sep ∉ a) :
    splitOnceChar sep (a ++ sep :: b) = some (a, b) := by
  induction a with
  | nil =>
    simp [splitOnceChar]
  | cons c cs ih =>
    simp only [List.mem_cons, not_or] at ha
    simp only [List.cons_append, splitOnceChar, List.append_eq]
    rw [if_neg (fun hcc : c = sep => ha.1 hcc.symm)]
    rw [ih ha.2]
    rfl

theorem splitnChar_mem (n : Nat) (sep : Char) (s : List Char) (c : Char)
    (hn : 1 ≤ n) (hc : c ∈ s) : c = sep ∨ ∃ p ∈ splitnChar n sep s, c ∈ p := by
  induction n using Nat.strong_induction_on generalizing s with
  | _ n ih =>
    match n, hn with
    | 1, _ =>
      exact Or.inr ⟨s, by simp [splitnChar], hc⟩
    | (m + 2), _ =>
      cases hsp : splitOnceChar sep s with
      | none =>
        exact Or.inr ⟨s, by simp [splitnChar, hsp], hc⟩
      | some p =>
        obtain ⟨x, y⟩ := p
        obtain ⟨hxy, hnx⟩ := splitOnceChar_eq_some sep s x y hsp
        subst hxy
        rcases List.mem_append.mp hc with hx | hy
        · exact Or.inr ⟨x, by simp [splitnChar, hsp], hx⟩
        · rcases List.mem_cons.mp hy with rfl | hy'
          · exact Or.inl rfl
          · rcases ih (m + 1) (by omega) y (by omega) hy' with h | ⟨q, hq, hcq⟩
            · exact Or.inl h
            · exact Or.inr ⟨q, by simp [splitnChar, hsp]; exact Or.inr hq, hcq⟩

theorem splitnChar_length_le (n : Nat) (sep : Char) (s : List Char) (hn : 1 ≤ n) :
    (splitnChar n sep s).length ≤ n := by
  induction n using Nat.strong_induction_on generalizing s with
  | _ n ih =>
    match n, hn with
    | 1, _ => simp [splitnChar]
    | (m + 2), _ =>
      cases hsp : splitOnceChar sep s with
      | none => simp [splitnChar, hsp]
      | some p =>
        simp only [splitnChar, hsp, List.length_cons]
        exact Nat.add_le_add_right (ih (m + 1) (by omega) p.2 (by omega)) 1

theorem splitnChar_ne_nil (n : Nat) (sep : Char) (s : List Char) (hn : 1 ≤ n) :
    splitnChar n sep s ≠ [] := by
  match n, hn with
  | 1, _ => simp [splitnChar]
  | (m + 2), _ =>
    cases hsp : splitOnceChar sep s with
    | none => simp [splitnChar, hsp]
    | some p => simp [splitnChar, hsp]

theorem splitnChar3_exact (sep : Char) (a b c : List Char)
    (ha : sep ∉ a) (hb : sep ∉ b) :
    splitnChar 3 sep (a ++ sep :: (b ++ sep :: c)) = [a, b, c] := by
  show splitnChar (1 + 2) sep _ = _
  unfold splitnChar
  rw [splitOnceChar_append sep a (b ++ sep :: c) ha]
  show _ :: splitnChar (0 + 2) sep _ = _
  unfold splitnChar
  rw [splitOnceChar_append sep b c hb]
  rfl

theorem splitnChar3_last_sep (sep : Char) (s : List Char) (h : 3 ≤ s.count sep) :
    ∃ a b c, splitnChar 3 sep s = [a, b, c] ∧ sep ∈ c := by
  have hmem : sep ∈ s := List.count_pos_iff.mp (by omega)
  cases hsp : splitOnceChar sep s with
  | none => exact absurd hmem (splitOnceChar_eq_none sep s hsp)
  | some p =>
    obtain ⟨a, r1⟩ := p
    obtain ⟨hs1, hna⟩ := splitOnceChar_eq_some sep s a r1 hsp
    have hca : s.count sep = r1.count sep + 1 := by
      subst hs1
      simp [List.count_append, List.count_cons, List.count_eq_zero.mpr hna]
    have hmem1 : sep ∈ r1 := List.count_pos_iff.mp (by omega)
    cases hsp1 : splitOnceChar sep r1 with
    | none => exact absurd hmem1 (splitOnceChar_eq_none sep r1 hsp1)
    | some q =>
      obtain ⟨b, r2⟩ := q
      obtain ⟨hs2, hnb⟩ := splitOnceChar_eq_some sep r1 b r2 hsp1
      have hcb : r1.count sep = r2.count sep + 1 := by
        subst hs2
        simp [List.count_append, List.count_cons, List.count_eq_zero.mpr hnb]
      have hmem2 : sep ∈ r2 := List.count_pos_iff.mp (by omega)
      refine ⟨a, b, r2, ?_, hmem2⟩
      show splitnChar (1 + 2) sep s = _
      unfold splitnChar
      rw [hsp]
      show _ :: splitnChar (0 + 2) sep r1 = _
      unfold splitnChar
      rw [hsp1]
      rfl

theorem parse_time_shift (text : List Char) (i : Nat) :
    parse_time text i = Except.mapError
      (fun e => { reason := e.reason, start := i, stop := i + widthS text })
      (parse_time text 0) := by
  unfold parse_time
  cases h0 : (splitnChar 3 ':' text).reverse[0]? with
  | none =>
    cases h1 : (splitnChar 3 ':' text).reverse[1]? with
    | none =>
      cases h2 : (splitnChar 3 ':' text).reverse[2]? with
      | none => simp [h0, h1, h2, Except.mapError]
      | some s2 => cases hp2 : parseU32 s2 <;> simp [h0, h1, h2, hp2, Except.mapError]
    | some s1 =>
      cases hp1 : parseU32 s1 with
      | none => simp [h0, h1, hp1, Except.mapError]
      | some v1 =>
        cases h2 : (splitnChar 3 ':' text).reverse[2]? with
        | none => simp [h0, h1, h2, hp1, Except.mapError]
        | some s2 => cases hp2 : parseU32 s2 <;> simp [h0, h1, h2, hp1, hp2, Except.mapError]
  | some s0 =>
    cases hps : parseU32 ((splitOnceChar ',' s0).getD (s0, ['0'])).1 with
    | none => simp [h0, hps, Except.mapError]
    | some sec =>
      cases hpm : parseU32 ((splitOnceChar ',' s0).getD (s0, ['0'])).2 with
      | none => simp [h0, hps, hpm, Except.mapError]
      | some ms =>
        cases h1 : (splitnChar 3 ':' text).reverse[1]? with
        | none =>
          cases h2 : (splitnChar 3 ':' text).reverse[2]? with
          | none => simp [h0, h1, h2, hps, hpm, Except.mapError]
          | some s2 => cases hp2 : parseU32 s2 <;> simp [h0, h1, h2, hps, hpm, hp2, Except.mapError]
        | some s1 =>
          cases hp1 : parseU32 s1 with
          | none => simp [h0, h1, hps, hpm, hp1, Except.mapError]
          | some v1 =>
            cases h2 : (splitnChar 3 ':' text).reverse[2]? with
            | none => simp [h0, h1, h2, hps, hpm, hp1, Except.mapError]
            | some s2 => cases hp2 : parseU32 s2 <;> simp [h0, h1, h2, hps, hpm, hp1, hp2, Except.mapError]

theorem secondsSeg_chars (p : List Char) (s ms : Nat)
    (hs : parseU32 ((splitOnceChar ',' p).getD (p, ['0'])).1 = some s)
    (hms : parseU32 ((splitOnceChar ',' p).getD (p, ['0'])).2 = some ms) :
    ∀ c ∈ p, c.isDigit = true ∨ c = '+' ∨ c = ',' := by
  intro c hcp
  cases hc : splitOnceChar ',' p with
  | none =>
    rw [hc] at hs
    rcases parseU32_mem _ _ hs c hcp with h | h
    · exact Or.inl h
    · exact Or.inr (Or.inl h)
  | some q =>
    obtain ⟨x, y⟩ := q
    obtain ⟨hxy, _⟩ := splitOnceChar_eq_some ',' p x y hc
    rw [hc] at hs hms
    rw [hxy] at hcp
    rcases List.mem_append.mp hcp with hx | hy
    · rcases parseU32_mem _ _ hs c hx with h | h
      · exact Or.inl h
      · exact Or.inr (Or.inl h)
    · rcases List.mem_cons.mp hy with rfl | hy'
      · exact Or.inr (Or.inr rfl)
      · rcases parseU32_mem _ _ hms c hy' with h | h
        · exact Or.inl h
        · exact Or.inr (Or.inl h)

theorem parse_time_ok_inv (text : List Char) (i v : Nat)
    (h : parse_time text i = .ok v) :
    (∀ p, (splitnChar 3 ':' text).reverse[0]? = some p →
      ∃ s ms, parseU32 ((splitOnceChar ',' p).getD (p, ['0'])).1 = some s ∧
              parseU32 ((splitOnceChar ',' p).getD (p, ['0'])).2 = some ms) ∧
    (∀ p, (splitnChar 3 ':' text).reverse[1]? = some p → ∃ m, parseU32 p = some m) ∧
    (∀ p, (splitnChar 3 ':' text).reverse[2]? = some p → ∃ m, parseU32 p = some m) := by
  unfold parse_time at h
  cases h0 : (splitnChar 3 ':' text).reverse[0]? with
  | none =>
    cases h1 : (splitnChar 3 ':' text).reverse[1]? with
    | none =>
      cases h2 : (splitnChar 3 ':' text).reverse[2]? with
      | none => simp_all
      | some s2 => cases hp2 : parseU32 s2 <;> simp_all
    | some s1 =>
      cases hp1 : parseU32 s1 with
      | none => simp_all
      | some v1 =>
        cases h2 : (splitnChar 3 ':' text).reverse[2]? with
        | none => simp_all
        | some s2 => cases hp2 : parseU32 s2 <;> simp_all
  | some s0 =>
    cases hps : parseU32 ((splitOnceChar ',' s0).getD (s0, ['0'])).1 with
    | none => simp_all
    | some sec =>
      cases hpm : parseU32 ((splitOnceChar ',' s0).getD (s0, ['0'])).2 with
      | none => simp_all
      | some ms =>
        cases h1 : (splitnChar 3 ':' text).reverse[1]? with
        | none =>
          cases h2 : (splitnChar 3 ':' text).reverse[2]? with
          | none => simp_all
          | some s2 => cases hp2 : parseU32 s2 <;> simp_all
        | some s1 =>
          cases hp1 : parseU32 s1 with
          | none => simp_all
          | some v1 =>
            cases h2 : (splitnChar 3 ':' text).reverse[2]? with
            | none => simp_all
            | some s2 => cases hp2 : parseU32 s2 <;> simp_all

theorem parse_time_error_shape (text : List Char) (i : Nat) (e : ParseError)
    (h : parse_time text i = .error e) :
    e.start = i ∧ e.stop = i + widthS text := by
  rw [parse_time_shift text i] at h
  cases h0 : parse_time text 0 with
  | ok v => rw [h0] at h; simp [Except.mapError] at h
  | error e0 =>
    rw [h0] at h
    simp only [Except.mapError] at h
    injection h with h
    subst h
    exact ⟨rfl, rfl⟩

theorem parse_time_ok_any_base (text : List Char) (i j v : Nat)
    (h : parse_time text i = .ok v) : parse_time text j = .ok v := by
  rw [parse_time_shift text i] at h
  rw [parse_time_shift text j]
  cases h0 : parse_time text 0 with
  | ok w => rw [h0] at h; simp only [Except.mapError] at h ⊢; exact h
  | error e0 => rw [h0] at h; simp [Except.mapError] at h

theorem parse_time_error_any_base (text : List Char) (i j : Nat) (e : ParseError)
    (h : parse_time text i = .error e) :
    parse_time text j = .error { reason := e.reason, start := j, stop := j + widthS text } := by
  rw [parse_time_shift text i] at h
  rw [parse_time_shift text j]
  cases h0 : parse_time text 0 with
  | ok w => rw [h0] at h; simp [Except.mapError] at h
  | error e0 =>
    rw [h0] at h
    simp only [Except.mapError] at h ⊢
    injection h with h
    rw [← h]

theorem mem_of_len_le3 (l : List (List Char)) (p : List Char)
    (hlen : l.length ≤ 3) (hp : p ∈ l) :
    l[0]? = some p ∨ l[1]? = some p ∨ l[2]? = some p := by
  obtain ⟨n, hn, hg⟩ := List.mem_iff_getElem.mp hp
  have hq : l[n]? = some p := by
    rw [List.getElem?_eq_getElem hn, hg]
  have hn3 : n < 3 := Nat.lt_of_lt_of_le hn hlen
  interval_cases n
  · exact Or.inl hq
  · exact Or.inr (Or.inl hq)
  · exact Or.inr (Or.inr hq)

theorem parse_time_ok_chars (text : List Char) (i v : Nat)
    (h : parse_time text i = .ok v) : ∀ c ∈ text, niceChar c := by
  obtain ⟨inv0, inv1, inv2⟩ := parse_time_ok_inv text i v h
  intro c hc
  rcases splitnChar_mem 3 ':' text c (by omega) hc with rfl | ⟨p, hp, hcp⟩
  · exact Or.inr (Or.inr (Or.inl rfl))
  have hlen : (splitnChar 3 ':' text).reverse.length ≤ 3 := by
    rw [List.length_reverse]
    exact splitnChar_length_le 3 ':' text (by omega)
  rcases mem_of_len_le3 _ p hlen (List.mem_reverse.mpr hp) with h0 | h1 | h2
  · obtain ⟨s, ms, hs, hms⟩ := inv0 p h0
    rcases secondsSeg_chars p s ms hs hms c hcp with hd | hd | hd
    · exact Or.inl hd
    · exact Or.inr (Or.inl hd)
    · exact Or.inr (Or.inr (Or.inr hd))
  · obtain ⟨m, hm⟩ := inv1 p h1
    rcases parseU32_mem _ _ hm c hcp with hd | hd
    · exact Or.inl hd
    · exact Or.inr (Or.inl hd)
  · obtain ⟨m, hm⟩ := inv2 p h2
    rcases parseU32_mem _ _ hm c hcp with hd | hd
    · exact Or.inl hd
    · exact Or.inr (Or.inl hd)

theorem byteLen_eq_widthS_of_nice (s : List Char) (h : ∀ c ∈ s, niceChar c) :
    byteLen s = widthS s := by
  induction s with
  | nil => rfl
  | cons c cs ih =>
    obtain ⟨h1, h2⟩ := niceChar_byte_width c (h c (List.mem_cons_self c cs))
    simp only [byteLen, widthS, List.map_cons, List.sum_cons] at *
    rw [h1, h2, ih (fun d hd => h d (List.mem_cons_of_mem c hd))]

theorem niceChar_not_nl_cr (c : Char) (h : niceChar c) : c ≠ '\n' ∧ c ≠ '\r' ∧ c ≠ ' ' := by
  rcases h with h | h | h | h
  · obtain ⟨h1, h2⟩ := isDigit_toNat c h
    refine ⟨fun hq => ?_, fun hq => ?_, fun hq => ?_⟩ <;> subst hq <;> exact absurd h1 (by decide)
  all_goals subst h; exact ⟨by decide, by decide, by decide⟩

/-! ### Decimal printing lemmas -/

theorem digitChar_isDigit (d : Nat) (h : d < 10) : (Char.ofNat (48 + d)).isDigit = true := by
  interval_cases d <;> decide

theorem digitChar_toNat (d : Nat) (h : d < 10) : (Char.ofNat (48 + d)).toNat = 48 + d := by
  interval_cases d <;> decide

theorem natDigitsCore_append (n : Nat) :
    ∀ fuel acc, n < fuel → natDigitsCore fuel n acc = natDigits n ++ acc := by
  induction n using Nat.strong_induction_on with
  | _ n ih =>
    intro fuel acc hlt
    match fuel, hlt with
    | f + 1, _ =>
      by_cases h10 : n < 10
      · simp [natDigitsCore, natDigits, h10]
      · have hdiv : n / 10 < n := Nat.div_lt_self (by omega) (by omega)
        have hf : n / 10 < f := by omega
        simp only [natDigitsCore, if_neg h10]
        rw [ih (n / 10) hdiv f _ hf]
        conv_rhs =>
          rw [natDigits, natDigitsCore]
        simp only [if_neg h10]
        rw [ih (n / 10) hdiv n _ (by omega)]
        simp

theorem natDigits_lt10 (n : Nat) (h : n < 10) : natDigits n = [Char.ofNat (48 + n)] := by
  simp [natDigits, natDigitsCore, h]

theorem natDigits_step (n : Nat) (h : ¬n < 10) :
    natDigits n = natDigits (n / 10) ++ [Char.ofNat (48 + n % 10)] := by
  conv_lhs => rw [natDigits, natDigitsCore]
  simp only [if_neg h]
  exact natDigitsCore_append (n / 10) n _ (by omega)

theorem natDigits_all_digit (n : Nat) : ∀ c ∈ natDigits n, c.isDigit = true := by
  induction n using Nat.strong_induction_on with
  | _ n ih =>
    by_cases h10 : n < 10
    · rw [natDigits_lt10 n h10]
      intro c hc
      rcases List.mem_singleton.mp hc with rfl
      exact digitChar_isDigit n h10
    · rw [natDigits_step n h10]
      intro c hc
      rcases List.mem_append.mp hc with hc | hc
      · exact ih (n / 10) (Nat.div_lt_self (by omega) (by omega)) c hc
      · rcases List.mem_singleton.mp hc with rfl
        exact digitChar_isDigit _ (Nat.mod_lt n (by omega))

theorem natDigits_ne_nil (n : Nat) : natDigits n ≠ [] := by
  by_cases h10 : n < 10
  · rw [natDigits_lt10 n h10]; simp
  · rw [natDigits_step n h10]; simp

theorem digitsVal_append_singleton (a : List Char) (c : Char) :
    digitsVal (a ++ [c]) = digitsVal a * 10 + (c.toNat - 48) := by
  simp [digitsVal, List.foldl_append]

theorem digitsVal_natDigits (n : Nat) : digitsVal (natDigits n) = n := by
  induction n using Nat.strong_induction_on with
  | _ n ih =>
    by_cases h10 : n < 10
    · rw [natDigits_lt10 n h10]
      simp [digitsVal, digitChar_toNat n h10]
    · rw [natDigits_step n h10, digitsVal_append_singleton]
      rw [ih (n / 10) (Nat.div_lt_self (by omega) (by omega))]
      rw [digitChar_toNat _ (Nat.mod_lt n (by omega))]
      omega

theorem digitsVal_replicate_zero_append (k : Nat) (s : List Char) :
    digitsVal (List.replicate k '0' ++ s) = digitsVal s := by
  induction k with
  | zero => simp
  | succ k ih =>
    rw [List.replicate_succ, List.cons_append]
    show digitsVal (List.replicate k '0' ++ s) = digitsVal s
    exact ih

theorem zeroPad_all_digit (w : Nat) (s : List Char) (h : ∀ c ∈ s, c.isDigit = true) :
    ∀ c ∈ zeroPad w s, c.isDigit = true := by
  intro c hc
  rcases List.mem_append.mp hc with hc | hc
  · rcases List.eq_of_mem_replicate hc with rfl
    decide
  · exact h c hc

theorem stripPlus_of_all_digit (s : List Char) (h : ∀ c ∈ s, c.isDigit = true) :
    stripPlus s = s := by
  cases s with
  | nil => rfl
  | cons c cs =>
    have hc := h c (List.mem_cons_self _ _)
    have hne : ¬c = '+' := fun hq => by subst hq; exact absurd hc (by decide)
    simp [stripPlus, hne]

theorem parseU32_of_digits (s : List Char) (hne : s ≠ [])
    (hdig : ∀ c ∈ s, c.isDigit = true) (hlt : digitsVal s < U32MOD) :
    parseU32 s = some (digitsVal s) := by
  refine (parseU32_some_iff s (digitsVal s)).mpr ?_
  rw [stripPlus_of_all_digit s hdig]
  exact ⟨hne, List.all_eq_true.mpr (fun c hc => hdig c hc), rfl, hlt⟩

theorem parseU32_zeroPad (w n : Nat) (h : n < U32MOD) :
    parseU32 (zeroPad w (natDigits n)) = some n := by
  have hval : digitsVal (zeroPad w (natDigits n)) = n := by
    rw [zeroPad, digitsVal_replicate_zero_append, digitsVal_natDigits]
  have hne : zeroPad w (natDigits n) ≠ [] := by
    unfold zeroPad
    intro hq
    exact natDigits_ne_nil n (List.append_eq_nil.mp hq).2
  have hfin := parseU32_of_digits _ hne (zeroPad_all_digit w _ (natDigits_all_digit n))
    (by rw [hval]; exact h)
  rw [hval] at hfin
  exact hfin

theorem digit_ne_seps (c : Char) (h : c.isDigit = true) : c ≠ ':' ∧ c ≠ ',' := by
  obtain ⟨h1, h2⟩ := isDigit_toNat c h
  constructor <;> (intro hq; subst hq; revert h1 h2; decide)

theorem zeroPad_natDigits_no_colon (w n : Nat) : ':' ∉ zeroPad w (natDigits n) := by
  intro hc
  have := zeroPad_all_digit w (natDigits n) (natDigits_all_digit n) ':' hc
  exact absurd this (by decide)

theorem zeroPad_natDigits_no_comma (w n : Nat) : ',' ∉ zeroPad w (natDigits n) := by
  intro hc
  have := zeroPad_all_digit w (natDigits n) (natDigits_all_digit n) ',' hc
  exact absurd this (by decide)

theorem parse_time_quad (h mn sec ms i : Nat)
    (hh : h < U32MOD) (hmn : mn < U32MOD) (hsec : sec < U32MOD) (hms : ms < U32MOD)
    (hval : h * HOUR + mn * MINUTE + sec * SECOND + ms < U32MOD) :
    parse_time (zeroPad 2 (natDigits h) ++ ':' :: (zeroPad 2 (natDigits mn) ++ ':' ::
      (zeroPad 2 (natDigits sec) ++ ',' :: zeroPad 3 (natDigits ms)))) i
      = .ok (h * HOUR + mn * MINUTE + sec * SECOND + ms) := by
  have hsplit : splitnChar 3 ':'
      (zeroPad 2 (natDigits h) ++ ':' :: (zeroPad 2 (natDigits mn) ++ ':' ::
        (zeroPad 2 (natDigits sec) ++ ',' :: zeroPad 3 (natDigits ms))))
      = [zeroPad 2 (natDigits h), zeroPad 2 (natDigits mn),
         zeroPad 2 (natDigits sec) ++ ',' :: zeroPad 3 (natDigits ms)] :=
    splitnChar3_exact ':' _ _ _ (zeroPad_natDigits_no_colon 2 h) (zeroPad_natDigits_no_colon 2 mn)
  have hcomma : splitOnceChar ',' (zeroPad 2 (natDigits sec) ++ ',' :: zeroPad 3 (natDigits ms))
      = some (zeroPad 2 (natDigits sec), zeroPad 3 (natDigits ms)) :=
    splitOnceChar_append ',' _ _ (zeroPad_natDigits_no_comma 2 sec)
  have hp1 := parseU32_zeroPad 2 h hh
  have hp2 := parseU32_zeroPad 2 mn hmn
  have hp3 := parseU32_zeroPad 2 sec hsec
  have hp4 := parseU32_zeroPad 3 ms hms
  unfold parse_time
  rw [hsplit]
  simp [hcomma, hp1, hp2, hp3, hp4, Nat.mod_eq_of_lt hval]

theorem parse_time_print_time (m : Nat) (hm : m < U32MOD) (i : Nat) :
    parse_time (print_time m) i = .ok m := by
  have hH : HOUR = 3600000 := by norm_num [HOUR, MINUTE, SECOND]
  have hM : MINUTE = 60000 := by norm_num [MINUTE, SECOND]
  have hS : SECOND = 1000 := by norm_num [SECOND]
  have hU : U32MOD = 4294967296 := by norm_num [U32MOD]
  simp only [print_time]
  set a1 := m / HOUR with ha1
  set r1 := m - a1 * HOUR with hr1
  set a2 := r1 / MINUTE with ha2
  set r2 := r1 - a2 * MINUTE with hr2
  set a3 := r2 / SECOND with ha3
  set r3 := r2 - a3 * SECOND with hr3
  rw [hH] at ha1 hr1
  rw [hM] at ha2 hr2
  rw [hS] at ha3 hr3
  rw [hU] at hm
  have hq := parse_time_quad a1 a2 a3 r3 i
    (by rw [hU]; omega) (by rw [hU]; omega) (by rw [hU]; omega) (by rw [hU]; omega)
    (by rw [hU, hH, hM, hS]; omega)
  simp only [List.cons_append, List.append_assoc]
  rw [hq]
  congr 1
  rw [hH, hM, hS]
  omega

/-! ### Claim theorems: time codec -/

/-- C1: for every millisecond count `m` in `[0, 359999999]`, decoding the
encoded textual timestamp yields back exactly `m`:
`parse_time (print_time m) base = .ok m` for any base offset. -/
theorem C1_time_codec_inverse (m base : Nat) (h : m ≤ 359999999) :
    parse_time (print_time m) base = .ok m := by
  refine parse_time_print_time m ?_ base
  have hU : U32MOD = 4294967296 := by norm_num [U32MOD]
  omega

/-- Witness for C1 at `m = 5025678` (= `01:23:45,678`), base 3. -/
theorem C1_time_codec_inverse_witness :
    5025678 ≤ 359999999 ∧ parse_time (print_time 5025678) 3 = .ok 5025678 :=
  ⟨by norm_num, C1_time_codec_inverse 5025678 3 (by norm_num)⟩

/-- C10: the millisecond value returned by decode does not depend on the
caller-supplied base offset: for any two bases the two results either both
succeed with the same value or both fail with the same reason (only the
reported span differs). -/
theorem C10_base_offset_independent (text : List Char) (i1 i2 : Nat) :
    sameOutcome (parse_time text i1) (parse_time text i2) = true := by
  rw [parse_time_shift text i1, parse_time_shift text i2]
  cases h0 : parse_time text 0 with
  | ok v => simp [Except.mapError, sameOutcome]
  | error e => simp [Except.mapError, sameOutcome]

/-- C2 (code evaluation at the failing input): the adjustment loop of `main`
performs unguarded wrapping `u32` arithmetic: subtracting a 1500 ms delta
from a record with `from = 1000` mutates the record and wraps `from` to
4294966796; no `NegativeResult` rejection exists anywhere in the code. -/
theorem C2_adjust_underflow_wraps :
    adjustSubtitles [{ number := 1, fromMs := 1000, toMs := 3500, lines := [['H', 'i']] }]
      1500 true
      = [{ number := 1, fromMs := 4294966796, toMs := 2000, lines := [['H', 'i']] }] := by
  decide

/-- C3 counterexample: all segments of `"2000:00:00"` parse as `u32`, yet
decode does not return `hours * 3600000` (= 7200000000): the `u32`
multiplication wraps and the result is 2905032704. -/
theorem C3_formula_counterexample :
    parse_time ("2000:00:00".toList) 0 = .ok 2905032704 ∧ 2000 * 3600000 ≠ 2905032704 :=
  ⟨by decide, by decide⟩

/-- C3 amended: for a timestamp whose present segments all parse as
non-negative integers (a missing milliseconds part defaults to `0`, missing
minutes/hours segments default to `0`), decode returns
`hours * 3600000 + minutes * 60000 + seconds * 1000 + millis` reduced
modulo `2 ^ 32` (`u32` wrap-around); in particular the exact sum whenever
that sum is below `2 ^ 32`. -/
theorem C3_formula_mod_u32 (text : List Char) (index : Nat) (secondsStr0 : List Char)
    (sec ms mins hrs : Nat)
    (h0 : (splitnChar 3 ':' text).reverse[0]? = some secondsStr0)
    (hsec : parseU32 ((splitOnceChar ',' secondsStr0).getD (secondsStr0, ['0'])).1 = some sec)
    (hms : parseU32 ((splitOnceChar ',' secondsStr0).getD (secondsStr0, ['0'])).2 = some ms)
    (hmin : segParse (splitnChar 3 ':' text).reverse[1]? = some mins)
    (hhrs : segParse (splitnChar 3 ':' text).reverse[2]? = some hrs) :
    parse_time text index =
      .ok ((hrs * 3600000 + mins * 60000 + sec * 1000 + ms) % 2 ^ 32) := by
  have hH : HOUR = 3600000 := by norm_num [HOUR, MINUTE, SECOND]
  have hM : MINUTE = 60000 := by norm_num [MINUTE, SECOND]
  have hS : SECOND = 1000 := by norm_num [SECOND]
  have hU : U32MOD = 2 ^ 32 := rfl
  unfold parse_time
  cases h1 : (splitnChar 3 ':' text).reverse[1]? with
  | none =>
    rw [h1] at hmin
    simp only [segParse] at hmin
    injection hmin with hmin
    cases h2 : (splitnChar 3 ':' text).reverse[2]? with
    | none =>
      rw [h2] at hhrs
      simp only [segParse] at hhrs
      injection hhrs with hhrs
      simp [h0, h1, h2, hsec, hms, ← hmin, ← hhrs, hH, hM, hS, hU]
    | some hrsStr =>
      rw [h2] at hhrs
      simp only [segParse] at hhrs
      simp [h0, h1, h2, hsec, hms, hhrs, ← hmin, hH, hM, hS, hU]
  | some minsStr =>
    rw [h1] at hmin
    simp only [segParse] at hmin
    cases h2 : (splitnChar 3 ':' text).reverse[2]? with
    | none =>
      rw [h2] at hhrs
      simp only [segParse] at hhrs
      injection hhrs with hhrs
      simp [h0, h1, h2, hsec, hms, hmin, ← hhrs, hH, hM, hS, hU]
    | some hrsStr =>
      rw [h2] at hhrs
      simp only [segParse] at hhrs
      simp [h0, h1, h2, hsec, hms, hmin, hhrs, hH, hM, hS, hU]

/-- Witness for C3 amended at `"01:02:03,004"`, base 5. -/
theorem C3_formula_mod_u32_witness :
    parse_time ("01:02:03,004".toList) 5 =
      .ok ((1 * 3600000 + 2 * 60000 + 3 * 1000 + 4) % 2 ^ 32) :=
  C3_formula_mod_u32 ("01:02:03,004".toList) 5 ("03,004".toList) 3 4 2 1
    (by decide) (by decide) (by decide) (by decide) (by decide)

/-- C4 counterexample: the claim says decode succeeds on `"1:2:3:4"` using
the three rightmost segments; in fact decode fails with an
`Invalid seconds` diagnostic. -/
theorem C4_counterexample :
    parse_time ['1', ':', '2', ':', '3', ':', '4'] 0 =
      .error { reason := "Invalid seconds", start := 0, stop := 7 } := by
  decide

theorem parseU32_none_of_colon (s : List Char) (h : ':' ∈ s) : parseU32 s = none := by
  cases hp : parseU32 s with
  | none => rfl
  | some v =>
    rcases parseU32_mem s v hp ':' h with hd | hd
    · exact absurd hd (by decide)
    · exact absurd hd (by decide)

/-- C4 amended: when the timestamp text contains three or more ':' separators,
`splitn(3, ':')` leaves the extra colons inside the rightmost piece, which
then cannot parse as a number: decode rejects the text with an
`Invalid seconds` or `Invalid millis` diagnostic instead of ignoring the
extra segment. -/
theorem C4_extra_colons_rejected (text : List Char) (i : Nat) (h : 3 ≤ text.count ':') :
    ∃ e, parse_time text i = .error e ∧
      (e.reason = "Invalid seconds" ∨ e.reason = "Invalid millis") := by
  obtain ⟨a, b, c, hsp, hcc⟩ := splitnChar3_last_sep ':' text h
  unfold parse_time
  rw [hsp]
  cases hco : splitOnceChar ',' c with
  | none =>
    have hpc : parseU32 c = none := parseU32_none_of_colon c hcc
    refine ⟨{ reason := "Invalid seconds", start := i, stop := i + widthS text }, ?_, Or.inl rfl⟩
    simp [hco, hpc]
  | some q =>
    obtain ⟨x, y⟩ := q
    obtain ⟨hxy, _⟩ := splitOnceChar_eq_some ',' c x y hco
    rw [hxy] at hcc
    rcases List.mem_append.mp hcc with hx | hy
    · have hpc : parseU32 x = none := parseU32_none_of_colon x hx
      refine ⟨{ reason := "Invalid seconds", start := i, stop := i + widthS text }, ?_, Or.inl rfl⟩
      simp [hco, hpc]
    · rcases List.mem_cons.mp hy with hcol | hy'
      · exact absurd hcol.symm (by decide)
      · cases hpx : parseU32 x with
        | none =>
          refine ⟨{ reason := "Invalid seconds", start := i, stop := i + widthS text }, ?_,
            Or.inl rfl⟩
          simp [hco, hpx]
        | some vx =>
          have hpy : parseU32 y = none := parseU32_none_of_colon y hy'
          refine ⟨{ reason := "Invalid millis", start := i, stop := i + widthS text }, ?_,
            Or.inr rfl⟩
          simp [hco, hpx, hpy]

theorem C4_extra_colons_rejected_witness :
    3 ≤ (['1', ':', '2', ':', '3', ':', '4'] : List Char).count ':' ∧
      ∃ e, parse_time ['1', ':', '2', ':', '3', ':', '4'] 0 = .error e ∧
        (e.reason = "Invalid seconds" ∨ e.reason = "Invalid millis") :=
  ⟨by decide, C4_extra_colons_rejected ['1', ':', '2', ':', '3', ':', '4'] 0 (by decide)⟩

theorem parseSrtGoFuel_congr (f1 : Nat) :
    ∀ f2 ls i, ls.length ≤ f1 → ls.length ≤ f2 →
      parseSrtGoFuel f1 ls i = parseSrtGoFuel f2 ls i := by
  induction f1 with
  | zero =>
    intro f2 ls i h1 h2
    have hnil : ls = [] := List.length_eq_zero.mp (Nat.le_zero.mp h1)
    subst hnil
    cases f2 <;> rfl
  | succ f1 ih =>
    intro f2 ls i h1 h2
    cases ls with
    | nil => cases f2 <;> rfl
    | cons numberLine rest =>
      match f2, h2 with
      | g + 1, hg =>
        simp only [parseSrtGoFuel]
        cases hp : parseU32 numberLine with
        | none => rfl
        | some number =>
          dsimp only
          cases rest with
          | nil => rfl
          | cons timeLine rest2 =>
            dsimp only
            cases hs : splitOnceList ARROW_SEPARATOR timeLine with
            | none => rfl
            | some ft =>
              dsimp only
              cases hf : parse_time ft.1 (i + widthS numberLine + 1) with
              | error e => rfl
              | ok fromMs =>
                dsimp only
                cases ht : parse_time ft.2
                    (i + widthS numberLine + 1 + widthS ft.1 + widthS ARROW_SEPARATOR) with
                | error e => rfl
                | ok toMs =>
                  dsimp only
                  have hdw : (rest2.dropWhile (fun l : List Char => !l.isEmpty)).length
                      ≤ rest2.length := (List.dropWhile_sublist _).length_le
                  have hd1 : (List.drop 1 (rest2.dropWhile (fun l => !l.isEmpty))).length
                      ≤ rest2.length := by
                    have hdr := List.length_drop 1 (rest2.dropWhile (fun l => !l.isEmpty))
                    omega
                  simp only [List.length_cons] at h1 hg
                  rw [ih g (List.drop 1 (rest2.dropWhile (fun l => !l.isEmpty)))
                    (i + widthS numberLine + 1 + byteLen timeLine + 1 +
                      (List.map (fun l => widthS l + 1) (rest2.takeWhile (fun l => !l.isEmpty))).sum +
                      if (rest2.dropWhile (fun l => !l.isEmpty)).isEmpty then 0 else 1)
                    (by omega) (by omega)]

theorem parseSrtGo_fuel (fuel : Nat) (ls : List (List Char)) (i : Nat)
    (h : ls.length ≤ fuel) : parseSrtGoFuel fuel ls i = parseSrtGo ls i :=
  parseSrtGoFuel_congr fuel ls.length ls i h (Nat.le_refl _)

/-- C8: if the number line of a block does not parse as a non-negative
integer, the parse loop fails at the current offset with an
`Invalid subtitle number` diagnostic whose span covers exactly that line's
extent (in display width) from the current offset. -/
theorem C8_invalid_number_line (index : Nat) (numberLine : List Char)
    (rest : List (List Char)) (h : parseU32 numberLine = none) :
    parseSrtGo (numberLine :: rest) index =
      .error { reason := "Invalid subtitle number", start := index,
               stop := index + widthS numberLine } := by
  unfold parseSrtGo
  simp only [List.length_cons, parseSrtGoFuel, h]

/-- Witness for C8 on the number line `"abc"` at offset 5. -/
theorem C8_invalid_number_line_witness :
    parseSrtGo [['a', 'b', 'c']] 5 =
      .error { reason := "Invalid subtitle number", start := 5, stop := 8 } := by
  rw [C8_invalid_number_line 5 ['a', 'b', 'c'] [] (by decide)]
  decide

theorem takeWhile_body (body rest : List (List Char)) (h : ∀ l ∈ body, l ≠ []) :
    (body ++ [] :: rest).takeWhile (fun l => !l.isEmpty) = body ∧
      (body ++ [] :: rest).dropWhile (fun l => !l.isEmpty) = [] :: rest := by
  induction body with
  | nil => constructor <;> simp [List.takeWhile_cons, List.dropWhile_cons]
  | cons l body' ih =>
    have hl : l ≠ [] := h l (List.mem_cons_self _ _)
    have hne : l.isEmpty = false := by
      cases l
      · exact absurd rfl hl
      · rfl
    obtain ⟨ih1, ih2⟩ := ih (fun x hx => h x (List.mem_cons_of_mem _ hx))
    constructor
    · simp [List.takeWhile_cons, hne, ih1]
    · simp [List.dropWhile_cons, hne, ih2]

theorem parseSrtGo_block (numberLine timeLine : List Char) (body rest : List (List Char))
    (i n fv tv : Nat) (ft : List Char × List Char)
    (hn : parseU32 numberLine = some n)
    (hs : splitOnceList ARROW_SEPARATOR timeLine = some ft)
    (hf : parse_time ft.1 0 = .ok fv)
    (ht : parse_time ft.2 0 = .ok tv)
    (hbody : ∀ l ∈ body, l ≠ []) :
    parseSrtGo (numberLine :: timeLine :: (body ++ [] :: rest)) i =
      (parseSrtGo rest (i + widthS numberLine + 1 + byteLen timeLine + 1 +
        (body.map (fun l => widthS l + 1)).sum + 1)).map
        (fun subs => { number := n, fromMs := fv, toMs := tv, lines := body } :: subs) := by
  have hf' := parse_time_ok_any_base ft.1 0 (i + widthS numberLine + 1) fv hf
  have ht' := parse_time_ok_any_base ft.2 0
    (i + widthS numberLine + 1 + widthS ft.1 + widthS ARROW_SEPARATOR) tv ht
  obtain ⟨htw, hdw⟩ := takeWhile_body body rest hbody
  unfold parseSrtGo
  simp only [List.length_cons, parseSrtGoFuel, hn, hs, hf', ht', htw, hdw]
  have hrl : rest.length ≤ (body ++ [] :: rest).length + 1 := by
    simp [List.length_append]
    omega
  rw [show ([] :: rest).drop 1 = rest from rfl]
  rw [parseSrtGoFuel_congr ((body ++ [] :: rest).length + 1) rest.length rest _ hrl
    (Nat.le_refl _)]
  simp only [List.isEmpty_cons, Bool.false_eq_true, if_false]
  cases parseSrtGoFuel rest.length rest (i + widthS numberLine + 1 + byteLen timeLine + 1 +
      (body.map (fun l => widthS l + 1)).sum + 1) with
  | error e => rfl
  | ok subs => rfl

/-! ### strLines / unlines lemmas -/

theorem splitInclusive_eq_nil_iff (sep : Char) (s : List Char) :
    splitInclusive sep s = [] ↔ s = [] := by
  constructor
  · intro h
    cases s with
    | nil => rfl
    | cons c cs =>
      unfold splitInclusive at h
      revert h
      cases splitInclusive sep cs with
      | nil => intro h; simp at h
      | cons p ps => intro h; split_ifs at h
  · intro h; subst h; rfl

theorem splitInclusive_append_sep (sep : Char) (l rest : List Char) (hl : sep ∉ l) :
    splitInclusive sep (l ++ sep :: rest) = (l ++ [sep]) :: splitInclusive sep rest := by
  induction l with
  | nil =>
    simp only [List.nil_append]
    conv_lhs => rw [splitInclusive]
    cases h : splitInclusive sep rest with
    | nil => rfl
    | cons p ps => simp
  | cons c cs ih =>
    simp only [List.mem_cons, not_or] at hl
    simp only [List.cons_append]
    conv_lhs => rw [splitInclusive]
    rw [ih hl.2]
    dsimp only
    rw [if_neg (fun hq : c = sep => hl.1 hq.symm)]

theorem stripEol_append_newline (l : List Char) (h : l.getLast? ≠ some '\r') :
    stripEol (l ++ ['\n']) = l := by
  unfold stripEol
  rw [List.reverse_append]
  simp only [List.reverse_cons, List.reverse_nil, List.nil_append, List.cons_append,
    List.nil_append]
  rw [if_pos trivial]
  cases hl : l.reverse with
  | nil =>
    have hnil : l = [] := by simpa using congrArg List.reverse hl
    subst hnil
    rfl
  | cons x xs =>
    have hx : x ≠ '\r' := by
      intro hq
      subst hq
      apply h
      rw [← List.head?_reverse, hl]
      rfl
    dsimp only
    rw [if_neg hx]
    rw [← hl, List.reverse_reverse]

theorem strLines_unlines (L : List (List Char))
    (h : ∀ l ∈ L, '\n' ∉ l ∧ l.getLast? ≠ some '\r') :
    strLines (unlines L) = L := by
  induction L with
  | nil => rfl
  | cons l L' ih =>
    obtain ⟨h1, h2⟩ := h l (List.mem_cons_self _ _)
    have hrest := ih (fun x hx => h x (List.mem_cons_of_mem _ hx))
    unfold unlines at *
    simp only [List.map_cons, List.flatten_cons]
    unfold strLines at *
    rw [List.append_assoc, List.singleton_append]
    rw [splitInclusive_append_sep '\n' l _ h1]
    simp only [List.map_cons]
    rw [stripEol_append_newline l h2]
    rw [hrest]

/-! ### splitOnceList lemmas -/

theorem leadsWith_append (p t : List Char) : leadsWith p (p ++ t) = true := by
  induction p with
  | nil => rfl
  | cons c cs ih => simp [leadsWith, ih]

theorem leadsWith_drop (p s : List Char) (h : leadsWith p s = true) :
    s = p ++ s.drop p.length := by
  induction p generalizing s with
  | nil => simp
  | cons c cs ih =>
    cases s with
    | nil => simp [leadsWith] at h
    | cons x xs =>
      simp only [leadsWith, Bool.and_eq_true, decide_eq_true_eq] at h
      obtain ⟨rfl, h2⟩ := h
      simp only [List.cons_append, List.cons.injEq, true_and, List.length_cons,
        List.drop_succ_cons]
      exact ih xs h2

theorem splitOnceList_eq_some (pat s a b : List Char)
    (h : splitOnceList pat s = some (a, b)) : s = a ++ pat ++ b := by
  induction s generalizing a b with
  | nil =>
    unfold splitOnceList at h
    split_ifs at h with hq
    · simp only [Option.some.injEq, Prod.mk.injEq] at h
      obtain ⟨h1, h2⟩ := h
      subst h1
      subst h2
      cases pat with
      | nil => rfl
      | cons p ps => simp [leadsWith] at hq
  | cons c cs ih =>
    unfold splitOnceList at h
    split_ifs at h with hq
    · simp only [Option.some.injEq, Prod.mk.injEq] at h
      obtain ⟨h1, h2⟩ := h
      subst h1
      subst h2
      simp only [List.nil_append]
      exact leadsWith_drop pat (c :: cs) hq
    · cases hsp : splitOnceList pat cs with
      | none => rw [hsp] at h; simp at h
      | some q =>
        obtain ⟨x, y⟩ := q
        rw [hsp] at h
        simp at h
        obtain ⟨h1, h2⟩ := h
        subst h1
        subst h2
        rw [List.cons_append, List.cons_append]
        exact congrArg (List.cons c) (ih x y hsp)

theorem splitOnceList_prefix_append (h0 : Char) (patRest a b : List Char) (ha : h0 ∉ a) :
    splitOnceList (h0 :: patRest) (a ++ (h0 :: patRest) ++ b) = some (a, b) := by
  induction a with
  | nil =>
    simp only [List.nil_append]
    have hlw : leadsWith (h0 :: patRest) ((h0 :: patRest) ++ b) = true :=
      leadsWith_append (h0 :: patRest) b
    rw [List.cons_append]
    unfold splitOnceList
    rw [List.cons_append] at hlw
    rw [if_pos hlw]
    simp only [Option.some.injEq, Prod.mk.injEq, true_and]
    show List.drop (h0 :: patRest).length (h0 :: (patRest ++ b)) = b
    simp only [List.length_cons, List.drop_succ_cons]
    exact List.drop_left patRest b
  | cons c cs ih =>
    simp only [List.mem_cons, not_or] at ha
    have hlw : leadsWith (h0 :: patRest) ((c :: cs) ++ (h0 :: patRest) ++ b) = false := by
      simp only [List.cons_append, leadsWith, Bool.and_eq_false_iff]
      left
      simp only [decide_eq_false_iff_not]
      exact ha.1
    rw [List.cons_append, List.cons_append]
    unfold splitOnceList
    rw [List.cons_append, List.cons_append] at hlw
    rw [if_neg (by rw [hlw]; exact Bool.false_ne_true)]
    rw [ih ha.2]
    rfl

/-! ### Cleanliness of serialized lines -/

theorem getLast?_mem (l : List Char) (c : Char) (h : l.getLast? = some c) : c ∈ l := by
  rw [← List.head?_reverse] at h
  cases hr : l.reverse with
  | nil => rw [hr] at h; simp at h
  | cons x xs =>
    rw [hr] at h
    injection h with h
    rw [← h]
    have hm : x ∈ l.reverse := by rw [hr]; exact List.mem_cons_self _ _
    exact List.mem_reverse.mp hm

theorem line_clean_of_nice (l : List Char) (h : ∀ c ∈ l, niceChar c) :
    '\n' ∉ l ∧ l.getLast? ≠ some '\r' := by
  constructor
  · intro hm
    exact (niceChar_not_nl_cr _ (h _ hm)).1 rfl
  · intro hq
    exact (niceChar_not_nl_cr _ (h _ (getLast?_mem _ _ hq))).2.1 rfl

theorem niceChar_of_digit_plus (c : Char) (h : c.isDigit = true ∨ c = '+') : niceChar c := by
  rcases h with h | h
  · exact Or.inl h
  · exact Or.inr (Or.inl h)

theorem arrow_clean : ∀ c ∈ ARROW_SEPARATOR, c ≠ '\n' ∧ c ≠ '\r' := by decide

theorem timeLine_clean (timeLine : List Char) (ft : List Char × List Char) (fv tv : Nat)
    (hs : splitOnceList ARROW_SEPARATOR timeLine = some ft)
    (hf : parse_time ft.1 0 = .ok fv) (ht : parse_time ft.2 0 = .ok tv) :
    '\n' ∉ timeLine ∧ timeLine.getLast? ≠ some '\r' := by
  have heq : timeLine = ft.1 ++ ARROW_SEPARATOR ++ ft.2 := by
    obtain ⟨x, y⟩ := ft
    exact splitOnceList_eq_some _ _ _ _ hs
  have hchar : ∀ c ∈ timeLine, c ≠ '\n' ∧ c ≠ '\r' := by
    intro c hc
    rw [heq] at hc
    rcases List.mem_append.mp hc with hc | hc
    · rcases List.mem_append.mp hc with hc | hc
      · have := niceChar_not_nl_cr c (parse_time_ok_chars ft.1 0 fv hf c hc)
        exact ⟨this.1, this.2.1⟩
      · exact arrow_clean c hc
    · have := niceChar_not_nl_cr c (parse_time_ok_chars ft.2 0 tv ht c hc)
      exact ⟨this.1, this.2.1⟩
  constructor
  · intro hm
    exact (hchar _ hm).1 rfl
  · intro hq
    exact (hchar _ (getLast?_mem _ _ hq)).2 rfl

theorem numLine_clean (numLine : List Char) (n : Nat) (h : parseU32 numLine = some n) :
    '\n' ∉ numLine ∧ numLine.getLast? ≠ some '\r' :=
  line_clean_of_nice numLine
    (fun c hc => niceChar_of_digit_plus c (parseU32_mem _ _ h c hc))

theorem forall₂_mem_left {α β : Type} (R : α → β → Prop) (as : List α) (bs : List β)
    (h : List.Forall₂ R as bs) (a : α) (ha : a ∈ as) : ∃ b ∈ bs, R a b := by
  induction h with
  | nil => simp at ha
  | cons hR _ ih =>
    rcases List.mem_cons.mp ha with rfl | ha'
    · exact ⟨_, List.mem_cons_self _ _, hR⟩
    · obtain ⟨b, hb, hRb⟩ := ih ha'
      exact ⟨b, List.mem_cons_of_mem _ hb, hRb⟩

theorem blockLines_clean (b : RawBlock) (s : Subtitle) (h : blockMatch b s) :
    ∀ l ∈ blockLines b, '\n' ∉ l ∧ l.getLast? ≠ some '\r' := by
  obtain ⟨hn, ⟨ft, hs, hf, ht⟩, hbodyeq, hbody⟩ := h
  intro l hl
  rcases List.mem_cons.mp hl with rfl | hl
  · exact numLine_clean _ _ hn
  rcases List.mem_cons.mp hl with rfl | hl
  · exact timeLine_clean _ ft _ _ hs hf ht
  rcases List.mem_append.mp hl with hl | hl
  · exact (hbody l hl).2
  · rcases List.mem_singleton.mp hl with rfl
    exact ⟨by simp, by simp⟩

theorem parseSrtGo_blocks (blocks : List RawBlock) (subs : List Subtitle)
    (hm : List.Forall₂ blockMatch blocks subs) :
    ∀ i, parseSrtGo ((blocks.map blockLines).flatten) i = .ok subs := by
  induction hm with
  | nil => intro i; rfl
  | cons hbs hrest ih =>
    intro i
    next b s bs ss =>
    obtain ⟨hn, ⟨ft, hsplit, hf, ht⟩, hbodyeq, hbody⟩ := hbs
    simp only [List.map_cons, List.flatten_cons, blockLines]
    rw [List.cons_append, List.cons_append, List.append_assoc, List.singleton_append]
    rw [parseSrtGo_block b.numLine b.timeLine b.body ((bs.map blockLines).flatten) i
      s.number s.fromMs s.toMs ft hn hsplit hf ht (fun l hl => (hbody l hl).1)]
    rw [ih]
    show Except.ok _ = Except.ok (s :: ss)
    rw [hbodyeq]

/-- C9 counterexample: an input consisting of zero record blocks followed by
one trailing blank line.  The claim says parsing succeeds with zero
records; in fact the blank line is read as a number line and parsing fails
with an `Invalid subtitle number` diagnostic. -/
theorem C9_counterexample :
    parse_srt ['\n'] = .error { reason := "Invalid subtitle number", start := 0, stop := 0 } := by
  decide

/-- C9 amended: for an input consisting of zero or more well-formed record
blocks — each ending with its blank separator line, the input ending
immediately after the last separator — parsing succeeds and returns exactly
the records of those blocks.  (Extra blank lines beyond the one separator
per block are not tolerated: each would be read as the number line of a new
block and rejected; only trailing end-of-input is fine.) -/
theorem C9_blocks_parse_ok (blocks : List RawBlock) (subs : List Subtitle)
    (hm : List.Forall₂ blockMatch blocks subs) :
    parse_srt (unlines ((blocks.map blockLines).flatten)) = .ok subs := by
  unfold parse_srt
  rw [strLines_unlines]
  · exact parseSrtGo_blocks blocks subs hm 0
  · intro l hl
    obtain ⟨bl, hbl, hlbl⟩ := List.mem_flatten.mp hl
    obtain ⟨b, hb, rfl⟩ := List.mem_map.mp hbl
    obtain ⟨s, _, hbs⟩ := forall₂_mem_left blockMatch blocks subs hm b hb
    exact blockLines_clean b s hbs l hlbl

/-- Witness for C9 amended: one block `1 / 0:01 --> 2:03,5 / x` followed by
its blank separator. -/
theorem C9_blocks_parse_ok_witness :
    parse_srt (unlines ((([⟨['1'], "0:01 --> 2:03,5".toList, [['x']]⟩] :
        List RawBlock).map blockLines).flatten)) =
      .ok [{ number := 1, fromMs := 1000, toMs := 123005, lines := [['x']] }] :=
  C9_blocks_parse_ok _ _
    (List.Forall₂.cons
      ⟨by decide, ⟨("0:01".toList, "2:03,5".toList), by decide, by decide, by decide⟩,
        rfl, by decide⟩
      List.Forall₂.nil)

/-! ### Serialization shape lemmas -/

theorem parseU32_natDigits (n : Nat) (h : n < U32MOD) : parseU32 (natDigits n) = some n := by
  have hval := digitsVal_natDigits n
  have hfin := parseU32_of_digits (natDigits n) (natDigits_ne_nil n) (natDigits_all_digit n)
    (by rw [hval]; exact h)
  rw [hval] at hfin
  exact hfin

theorem print_time_chars (m : Nat) :
    ∀ c ∈ print_time m, c.isDigit = true ∨ c = ':' ∨ c = ',' := by
  intro c hc
  simp only [print_time] at hc
  rcases List.mem_append.mp hc with h | h
  · rcases List.mem_append.mp h with h | h
    · rcases List.mem_append.mp h with h | h
      · exact Or.inl (zeroPad_all_digit _ _ (natDigits_all_digit _) c h)
      · rcases List.mem_cons.mp h with rfl | h
        · exact Or.inr (Or.inl rfl)
        · exact Or.inl (zeroPad_all_digit _ _ (natDigits_all_digit _) c h)
    · rcases List.mem_cons.mp h with rfl | h
      · exact Or.inr (Or.inl rfl)
      · exact Or.inl (zeroPad_all_digit _ _ (natDigits_all_digit _) c h)
  · rcases List.mem_cons.mp h with rfl | h
    · exact Or.inr (Or.inr rfl)
    · exact Or.inl (zeroPad_all_digit _ _ (natDigits_all_digit _) c h)

theorem print_time_no_space (m : Nat) : ' ' ∉ print_time m := by
  intro hm
  rcases print_time_chars m ' ' hm with h | h | h
  · exact absurd h (by decide)
  · exact absurd h (by decide)
  · exact absurd h (by decide)

theorem unlines_append (A B : List (List Char)) :
    unlines (A ++ B) = unlines A ++ unlines B := by
  simp [unlines]

theorem print_subtitle_unlines (s : Subtitle) :
    print_subtitle s ++ ['\n'] = unlines (blockLines (subtitleBlock s)) := by
  simp [print_subtitle, unlines, blockLines, subtitleBlock, List.map_append,
    List.flatten_append, List.append_assoc, List.cons_append, List.singleton_append]

theorem print_subtitles_as_blocks (subs : List Subtitle) :
    print_subtitles subs = unlines (((subs.map subtitleBlock).map blockLines).flatten) := by
  induction subs with
  | nil => rfl
  | cons s rest ih =>
    show (print_subtitle s ++ ['\n']) ++ print_subtitles rest = _
    simp only [List.map_cons, List.flatten_cons]
    rw [unlines_append, ih, print_subtitle_unlines]

theorem blockMatch_subtitleBlock (s : Subtitle)
    (hn : s.number < U32MOD) (hf : s.fromMs < U32MOD) (ht : s.toMs < U32MOD)
    (hlines : ∀ l ∈ s.lines, l ≠ [] ∧ '\n' ∉ l ∧ l.getLast? ≠ some '\r') :
    blockMatch (subtitleBlock s) s := by
  refine ⟨parseU32_natDigits s.number hn, ?_, rfl, hlines⟩
  refine ⟨(print_time s.fromMs, print_time s.toMs), ?_,
    parse_time_print_time s.fromMs hf 0, parse_time_print_time s.toMs ht 0⟩
  show splitOnceList ARROW_SEPARATOR
    (print_time s.fromMs ++ (' ' :: ['-', '-', '>', ' ']) ++ print_time s.toMs) = _
  exact splitOnceList_prefix_append ' ' ['-', '-', '>', ' '] _ _
    (print_time_no_space s.fromMs)

/-- C6 counterexample: a record list whose times are non-negative and whose
single body line `"a\nb"` is not blank still fails to round-trip: the
embedded newline splits it into two body lines on re-parsing. -/
theorem C6_counterexample :
    parse_srt (print_subtitles [{ number := 1, fromMs := 0, toMs := 1000, lines := [['a', '\n', 'b']] }]) =
      .ok [{ number := 1, fromMs := 0, toMs := 1000, lines := [['a'], ['b']] }] ∧
    ([{ number := 1, fromMs := 0, toMs := 1000, lines := [['a'], ['b']] }] : List Subtitle) ≠
      [{ number := 1, fromMs := 0, toMs := 1000, lines := [['a', '\n', 'b']] }] :=
  ⟨by decide, by decide⟩

theorem forall₂_blockMatch_map (subs : List Subtitle)
    (h : ∀ s ∈ subs, s.number < U32MOD ∧ s.fromMs < U32MOD ∧ s.toMs < U32MOD ∧
      ∀ l ∈ s.lines, l ≠ [] ∧ '\n' ∉ l ∧ l.getLast? ≠ some '\r') :
    List.Forall₂ blockMatch (subs.map subtitleBlock) subs := by
  induction subs with
  | nil => exact List.Forall₂.nil
  | cons s rest ih =>
    obtain ⟨h1, h2, h3, h4⟩ := h s (List.mem_cons_self _ _)
    exact List.Forall₂.cons (blockMatch_subtitleBlock s h1 h2 h3 h4)
      (ih (fun x hx => h x (List.mem_cons_of_mem _ hx)))

/-- C6 amended: serializing and re-parsing reproduces any record list whose
`number`/`from`/`to` fit in `u32` (automatic from the Rust types) and whose
body lines are non-blank, contain no `'\n'`, and do not end in `'\r'`:
`parse_srt (print_subtitles records) = .ok records`. -/
theorem C6_serialize_parse_roundtrip (subs : List Subtitle)
    (h : ∀ s ∈ subs, s.number < U32MOD ∧ s.fromMs < U32MOD ∧ s.toMs < U32MOD ∧
      ∀ l ∈ s.lines, l ≠ [] ∧ '\n' ∉ l ∧ l.getLast? ≠ some '\r') :
    parse_srt (print_subtitles subs) = .ok subs := by
  have hm := forall₂_blockMatch_map subs h
  rw [print_subtitles_as_blocks]
  unfold parse_srt
  rw [strLines_unlines]
  · exact parseSrtGo_blocks _ _ hm 0
  · intro l hl
    obtain ⟨bl, hbl, hlbl⟩ := List.mem_flatten.mp hl
    obtain ⟨b, hb, rfl⟩ := List.mem_map.mp hbl
    obtain ⟨s, _, hbs⟩ := forall₂_mem_left blockMatch _ subs hm b hb
    exact blockLines_clean b s hbs l hlbl

/-- Witness for C6 amended on one record. -/
theorem C6_serialize_parse_roundtrip_witness :
    parse_srt (print_subtitles [{ number := 1, fromMs := 1000, toMs := 3500, lines := [['H', 'i']] }]) =
      .ok [{ number := 1, fromMs := 1000, toMs := 3500, lines := [['H', 'i']] }] :=
  C6_serialize_parse_roundtrip _ (by decide)

/-! ### C5: display-width versus byte-length offset bookkeeping -/

theorem timeLine_byte_eq_width (timeLine : List Char) (ft : List Char × List Char)
    (i j fv tv : Nat)
    (hs : splitOnceList ARROW_SEPARATOR timeLine = some ft)
    (hf : parse_time ft.1 i = .ok fv) (ht : parse_time ft.2 j = .ok tv) :
    byteLen timeLine = widthS timeLine := by
  have heq : timeLine = ft.1 ++ ARROW_SEPARATOR ++ ft.2 := by
    obtain ⟨x, y⟩ := ft
    exact splitOnceList_eq_some _ _ _ _ hs
  rw [heq, byteLen_append, byteLen_append, widthS_append, widthS_append]
  rw [byteLen_eq_widthS_of_nice ft.1 (parse_time_ok_chars ft.1 i fv hf)]
  rw [byteLen_eq_widthS_of_nice ft.2 (parse_time_ok_chars ft.2 j tv ht)]
  rw [show byteLen ARROW_SEPARATOR = widthS ARROW_SEPARATOR from by decide]

theorem parseSrtGoFuel_spec_eq (fuel : Nat) :
    ∀ ls i, parseSrtGoFuel fuel ls i = parseSrtSpecGoFuel fuel ls i := by
  induction fuel with
  | zero => intro ls i; rfl
  | succ fuel ih =>
    intro ls i
    cases ls with
    | nil => rfl
    | cons numberLine rest =>
      simp only [parseSrtGoFuel, parseSrtSpecGoFuel]
      cases hp : parseU32 numberLine with
      | none => rfl
      | some number =>
        dsimp only
        cases rest with
        | nil => rfl
        | cons timeLine rest2 =>
          dsimp only
          cases hs : splitOnceList ARROW_SEPARATOR timeLine with
          | none => rfl
          | some ft =>
            dsimp only
            cases hf : parse_time ft.1 (i + widthS numberLine + 1) with
            | error e => rfl
            | ok fromMs =>
              dsimp only
              cases ht : parse_time ft.2
                  (i + widthS numberLine + 1 + widthS ft.1 + widthS ARROW_SEPARATOR) with
              | error e => rfl
              | ok toMs =>
                dsimp only
                rw [timeLine_byte_eq_width timeLine ft _ _ fromMs toMs hs hf ht]
                rw [ih]

/-- C5: every consumed line advances the running offset by its display width
plus one, so all diagnostic spans are expressed in display-width offsets:
the parser (which advances past the time line by its byte length, source
line 151) is extensionally equal to the specification's parser that
advances every line by display width, because a successfully decoded time
line consists of width-1 single-byte characters only. -/
theorem C5_offsets_display_width (text : List Char) :
    parse_srt text = parse_srt_spec text :=
  parseSrtGoFuel_spec_eq (strLines text).length (strLines text) 0

/-! ### C7: diagnostic span bounds -/

theorem byteLen_reverse (s : List Char) : byteLen s.reverse = byteLen s := by
  simp [byteLen, List.map_reverse, List.sum_reverse]

theorem byteLen_cons (c : Char) (s : List Char) :
    byteLen (c :: s) = utf8Len c + byteLen s := by
  simp [byteLen]

theorem stripEol_byteLen_le (l : List Char) : byteLen (stripEol l) ≤ byteLen l := by
  unfold stripEol
  cases hr : l.reverse with
  | nil => exact Nat.le_refl _
  | cons c rest =>
    have hbl : byteLen l = utf8Len c + byteLen rest := by
      have h2 := byteLen_reverse l
      rw [hr, byteLen_cons] at h2
      omega
    dsimp only
    split_ifs with h1
    · cases rest with
      | nil => simp [byteLen]
      | cons c2 rest2 =>
        dsimp only
        split_ifs with h2
        · rw [byteLen_reverse, hbl, byteLen_cons]
          omega
        · rw [byteLen_reverse, hbl, byteLen_cons]
          omega
    · exact Nat.le_refl _

theorem stripEol_cons_byteLen_le (c : Char) (p : List Char) (hp : p ≠ []) :
    byteLen (stripEol (c :: p)) ≤ utf8Len c + byteLen (stripEol p) := by
  cases hpr : p.reverse with
  | nil => exact absurd (by simpa using congrArg List.reverse hpr) hp
  | cons x xs =>
    have hcr : (c :: p).reverse = x :: (xs ++ [c]) := by
      rw [List.reverse_cons, hpr, List.cons_append]
    by_cases hx : x = '\n'
    · cases hxs : xs with
      | nil =>
        subst hx
        subst hxs
        have hsp : stripEol p = [] := by
          unfold stripEol
          rw [hpr]
          rfl
        rw [hsp]
        unfold stripEol
        rw [hcr]
        dsimp only
        rw [if_pos rfl]
        simp only [List.nil_append]
        split_ifs with hc
        · simp [byteLen]
        · simp [byteLen]
      | cons y ys =>
        subst hx
        subst hxs
        have hcr2 : (c :: p).reverse = '\n' :: y :: (ys ++ [c]) := by
          rw [hcr]
          rfl
        by_cases hy : y = '\r'
        · subst hy
          have hsp : stripEol p = ys.reverse := by
            unfold stripEol
            rw [hpr]
            rfl
          have hscp : stripEol (c :: p) = (ys ++ [c]).reverse := by
            unfold stripEol
            rw [hcr2]
            rfl
          rw [hsp, hscp]
          simp [byteLen, List.map_reverse, List.sum_reverse, List.map_append,
            List.sum_append]
        · have hsp : stripEol p = (y :: ys).reverse := by
            unfold stripEol
            rw [hpr]
            dsimp only
            rw [if_pos rfl, if_neg hy]
          have hscp : stripEol (c :: p) = (y :: (ys ++ [c])).reverse := by
            unfold stripEol
            rw [hcr2]
            dsimp only
            rw [if_pos rfl, if_neg hy]
          rw [hsp, hscp]
          simp [byteLen, List.map_reverse, List.sum_reverse, List.map_append,
            List.sum_append]
    · have hsp : stripEol p = p := by
        unfold stripEol
        rw [hpr]
        dsimp only
        rw [if_neg hx]
      have hscp : stripEol (c :: p) = c :: p := by
        unfold stripEol
        rw [hcr]
        dsimp only
        rw [if_neg hx]
      rw [hsp, hscp, byteLen_cons]

theorem splitInclusive_pieces_ne_nil (sep : Char) (s : List Char) :
    ∀ p ∈ splitInclusive sep s, p ≠ [] := by
  induction s with
  | nil => simp [splitInclusive]
  | cons c cs ih =>
    intro p hp
    unfold splitInclusive at hp
    revert hp
    cases hsi : splitInclusive sep cs with
    | nil =>
      intro hp
      rcases List.mem_singleton.mp hp with rfl
      simp
    | cons q qs =>
      intro hp
      split_ifs at hp with hc
      · rcases List.mem_cons.mp hp with rfl | hp'
        · simp
        · exact ih p (by rw [hsi]; exact hp')
      · rcases List.mem_cons.mp hp with rfl | hp'
        · simp
        · exact ih p (by rw [hsi]; exact List.mem_cons_of_mem _ hp')

theorem linesBytesT_cons (l : List Char) (ls : List (List Char)) :
    linesBytesT (l :: ls) = byteLen l + 1 + linesBytesT ls := by
  simp [linesBytesT]

theorem linesBytesT_append (a b : List (List Char)) :
    linesBytesT (a ++ b) = linesBytesT a + linesBytesT b := by
  simp [linesBytesT, List.sum_append]

theorem linesBytesT_strLines (s : List Char) :
    linesBytesT (strLines s) ≤ byteLen s + 1 := by
  induction s with
  | nil => simp [strLines, splitInclusive, linesBytesT]
  | cons c cs ih =>
    unfold strLines at ih ⊢
    unfold splitInclusive
    cases hsi : splitInclusive '\n' cs with
    | nil =>
      have hcs : cs = [] := (splitInclusive_eq_nil_iff '\n' cs).mp hsi
      subst hcs
      by_cases hc : c = '\n'
      · subst hc
        simp [stripEol, linesBytesT, byteLen]
      · have : stripEol [c] = [c] := by
          unfold stripEol
          simp only [List.reverse_cons, List.reverse_nil, List.nil_append]
          rw [if_neg hc]
        simp [linesBytesT, this, byteLen]
    | cons p ps =>
      rw [hsi] at ih
      have hpne : p ≠ [] := splitInclusive_pieces_ne_nil '\n' cs p (by rw [hsi]; simp)
      split_ifs with hc
      · -- c = '\n' : pieces are ['\n'] :: p :: ps
        subst hc
        simp only [List.map_cons, linesBytesT_cons] at ih ⊢
        have hstrip : stripEol ['\n'] = [] := by
          unfold stripEol
          rfl
        rw [hstrip]
        rw [byteLen_cons]
        have h1 : utf8Len '\n' = 1 := by decide
        have h0 : byteLen ([] : List Char) = 0 := rfl
        omega
      · -- pieces are (c :: p) :: ps
        simp only [List.map_cons, linesBytesT_cons] at ih ⊢
        have hle := stripEol_cons_byteLen_le c p hpne
        rw [byteLen_cons]
        omega

theorem sum_width_le_sum_byte (body : List (List Char)) :
    (body.map (fun l => widthS l + 1)).sum ≤ (body.map (fun l => byteLen l + 1)).sum := by
  induction body with
  | nil => simp
  | cons l rest ih =>
    simp only [List.map_cons, List.sum_cons]
    have := widthS_le_byteLen l
    omega

theorem dropWhile_head_false {α : Type} (p : α → Bool) (l : List α) (x : α) (xs : List α)
    (h : l.dropWhile p = x :: xs) : p x = false := by
  induction l with
  | nil => simp [List.dropWhile] at h
  | cons c cs ih =>
    rw [List.dropWhile_cons] at h
    split_ifs at h with hc
    · exact ih h
    · injection h with h1 h2
      rw [← h1]
      exact Bool.not_eq_true _ ▸ (by simpa using hc)

theorem parseSrtGoFuel_nil (fuel i : Nat) : parseSrtGoFuel fuel [] i = .ok [] := by
  cases fuel <;> rfl

theorem parseSrtGoFuel_error_span (fuel : Nat) :
    ∀ ls i e, ls.length ≤ fuel → parseSrtGoFuel fuel ls i = .error e →
      e.start ≤ e.stop ∧ e.stop ≤ i + linesBytesT ls := by
  induction fuel with
  | zero =>
    intro ls i e hlen herr
    have hnil : ls = [] := List.length_eq_zero.mp (Nat.le_zero.mp hlen)
    subst hnil
    simp [parseSrtGoFuel] at herr
  | succ fuel ih =>
    intro ls i e hlen herr
    cases ls with
    | nil => simp [parseSrtGoFuel] at herr
    | cons numberLine rest =>
      simp only [parseSrtGoFuel] at herr
      have hwn := widthS_le_byteLen numberLine
      cases hp : parseU32 numberLine with
      | none =>
        rw [hp] at herr
        dsimp only at herr
        injection herr with hee
        subst hee
        rw [linesBytesT_cons]
        refine ⟨by simp, ?_⟩
        show i + widthS numberLine ≤ i + (byteLen numberLine + 1 + linesBytesT rest)
        omega
      | some number =>
        rw [hp] at herr
        dsimp only at herr
        cases rest with
        | nil =>
          injection herr with hee
          subst hee
          rw [linesBytesT_cons]
          refine ⟨Nat.le_refl _, ?_⟩
          show i + widthS numberLine + 1 ≤ i + (byteLen numberLine + 1 + linesBytesT [])
          have h0 : linesBytesT [] = 0 := rfl
          omega
        | cons timeLine rest2 =>
          dsimp only at herr
          have hwt := widthS_le_byteLen timeLine
          cases hs : splitOnceList ARROW_SEPARATOR timeLine with
          | none =>
            rw [hs] at herr
            dsimp only at herr
            injection herr with hee
            subst hee
            rw [linesBytesT_cons, linesBytesT_cons]
            refine ⟨by simp, ?_⟩
            show i + widthS numberLine + 1 + widthS timeLine ≤
              i + (byteLen numberLine + 1 + (byteLen timeLine + 1 + linesBytesT rest2))
            omega
          | some ft =>
            rw [hs] at herr
            dsimp only at herr
            have htl : timeLine = ft.1 ++ ARROW_SEPARATOR ++ ft.2 := by
              obtain ⟨x, y⟩ := ft
              exact splitOnceList_eq_some _ _ _ _ hs
            have hwtl : widthS timeLine =
                widthS ft.1 + widthS ARROW_SEPARATOR + widthS ft.2 := by
              rw [htl, widthS_append, widthS_append]
            cases hf : parse_time ft.1 (i + widthS numberLine + 1) with
            | error e0 =>
              rw [hf] at herr
              dsimp only at herr
              injection herr with hee
              subst hee
              obtain ⟨hst, hsp⟩ := parse_time_error_shape ft.1 _ e0 hf
              rw [linesBytesT_cons, linesBytesT_cons]
              exact ⟨by omega, by omega⟩
            | ok fromMs =>
              rw [hf] at herr
              dsimp only at herr
              cases ht : parse_time ft.2
                  (i + widthS numberLine + 1 + widthS ft.1 + widthS ARROW_SEPARATOR) with
              | error e0 =>
                rw [ht] at herr
                dsimp only at herr
                injection herr with hee
                subst hee
                obtain ⟨hst, hsp⟩ := parse_time_error_shape ft.2 _ e0 ht
                rw [linesBytesT_cons, linesBytesT_cons]
                exact ⟨by omega, by omega⟩
              | ok toMs =>
                rw [ht] at herr
                dsimp only at herr
                simp only [List.length_cons] at hlen
                have hsplit2 : rest2.takeWhile (fun l : List Char => !l.isEmpty) ++
                    rest2.dropWhile (fun l => !l.isEmpty) = rest2 :=
                  List.takeWhile_append_dropWhile _ _
                cases hdw2 : rest2.dropWhile (fun l => !l.isEmpty) with
                | nil =>
                  rw [hdw2] at herr
                  simp only [List.drop_nil] at herr
                  rw [parseSrtGoFuel_nil] at herr
                  simp at herr
                | cons d rest3 =>
                  rw [hdw2] at herr
                  have hdnil : d = [] := by
                    have hf2 := dropWhile_head_false (fun l : List Char => !l.isEmpty)
                      rest2 d rest3 hdw2
                    cases d with
                    | nil => rfl
                    | cons x xs => simp at hf2
                  subst hdnil
                  simp only [List.isEmpty_cons, Bool.false_eq_true, if_false,
                    List.drop_succ_cons, List.drop_zero] at herr
                  have hdwlen : (([] : List Char) :: rest3).length ≤ rest2.length := by
                    rw [← hdw2]
                    exact (List.dropWhile_sublist _).length_le
                  simp only [List.length_cons] at hdwlen
                  cases hrec : parseSrtGoFuel fuel rest3
                      (i + widthS numberLine + 1 + byteLen timeLine + 1 +
                        (List.map (fun l => widthS l + 1)
                          (List.takeWhile (fun l => !l.isEmpty) rest2)).sum + 1) with
                  | ok subs =>
                    rw [hrec] at herr
                    simp at herr
                  | error e0 =>
                    rw [hrec] at herr
                    dsimp only at herr
                    injection herr with hee
                    subst hee
                    obtain ⟨ih1, ih2⟩ := ih rest3 _ e0 (by omega) hrec
                    refine ⟨ih1, ?_⟩
                    rw [linesBytesT_cons, linesBytesT_cons]
                    have hlbt : linesBytesT rest2 =
                        linesBytesT (rest2.takeWhile (fun l : List Char => !l.isEmpty)) +
                          (byteLen ([] : List Char) + 1 + linesBytesT rest3) := by
                      conv_lhs => rw [← hsplit2, hdw2]
                      rw [linesBytesT_append, linesBytesT_cons]
                    have hsw := sum_width_le_sum_byte
                      (rest2.takeWhile (fun l : List Char => !l.isEmpty))
                    have hlbtb : linesBytesT (rest2.takeWhile (fun l : List Char => !l.isEmpty)) =
                        ((rest2.takeWhile (fun l : List Char => !l.isEmpty)).map
                          (fun l => byteLen l + 1)).sum := rfl
                    have hb0 : byteLen ([] : List Char) = 0 := rfl
                    omega

/-- C7 counterexample: on input `"1"` (a number line at end of input with no
newline) the `Missing time line` diagnostic has span `2..2`, pointing one
past the end of the 1-byte input: `span.end ≤ length(input)` fails. -/
theorem C7_counterexample :
    parse_srt ['1'] = .error { reason := "Missing time line", start := 2, stop := 2 } ∧
      ¬(2 ≤ byteLen ['1']) :=
  ⟨by decide, by decide⟩

/-- C7 amended: every diagnostic produced by parsing has a well-formed span
with `span.start ≤ span.end` and `span.end ≤ length(input) + 1`; the `+ 1`
is reached only by the empty `Missing time line` span emitted after a final
line that is not newline-terminated (the parser charges one line-terminator
position that is not present in the input). -/
theorem C7_spans_bounded (text : List Char) (e : ParseError)
    (h : parse_srt text = .error e) :
    e.start ≤ e.stop ∧ e.stop ≤ byteLen text + 1 := by
  unfold parse_srt parseSrtGo at h
  obtain ⟨h1, h2⟩ := parseSrtGoFuel_error_span (strLines text).length (strLines text) 0 e
    (Nat.le_refl _) h
  refine ⟨h1, ?_⟩
  have h3 := linesBytesT_strLines text
  omega

/-- Witness for C7 amended on the input `"abc"`. -/
theorem C7_spans_bounded_witness :
    parse_srt ['a', 'b', 'c'] =
      .error { reason := "Invalid subtitle number", start := 0, stop := 3 } ∧
    (0 ≤ 3 ∧ 3 ≤ byteLen ['a', 'b', 'c'] + 1) :=
  ⟨by decide, C7_spans_bounded ['a', 'b', 'c']
    { reason := "Invalid subtitle number", start := 0, stop := 3 } (by decide)⟩
